import Mathlib

/-!
Verification of the version-comparison and policy-evaluation engine of the
image-version-analyzer repository.  The Python functions
`check_lts_version`, `calculate_version_gap`, `detect_version_level`
(`version_utils.py`), `is_valid_version_tag`, `find_recommended_tag`
(`utils/registry_utils.py`) and the classification part of
`analyze_image_tags` (`src/image_analyzer.py`) are shallowly embedded as
executable Lean functions over `List Char` / `String`, and the spec's claims
about them are proved or refuted.

Modelling conventions:
* Python strings are `String`; all traversals are done on `String.data`
  with structural recursion so that concrete instances reduce by `decide`.
* `re.findall(r'\d+', s)` is the list of maximal digit runs (`digitRuns`);
  `re.search(r'^\D*(\d+)', s)` is the first digit run;
  `re.sub(r'-.*$', '', s)` drops everything from the first `'-'`
  (tags contain no newline); `\d` is the ASCII digit class.
* Python `int` is `Int` (arbitrary precision); `str(n)` is decimal
  notation (`natChars` / `intChars`); float division in the `step_by`
  rule is modelled as exact rational division (exact for the small
  integers that occur in version numbers).
* Python dicts that the code only reads are insertion-ordered association
  lists; `custom_rules` is `List (String × Rule)`, a missing key being an
  absent entry and a missing rule field being `none`.
* `packaging.version.parse` is only ever applied to strings of the shape
  `\d+(\.\d+)*` (already validated and stripped); on that domain it yields
  the list of numeric components, ordered by zero-padded componentwise
  comparison (`verLe`), and `sorted` is the unique stable sort for it.
-/

/-! ### Character and string primitives -/

def digitVal (c : Char) : Nat := c.toNat - 48

def digitsVal (l : List Char) : Nat := l.foldl (fun a c => 10 * a + digitVal c) 0

def digitChar (n : Nat) : Char := Char.ofNat (48 + n)

def natDecAux : Nat → Nat → List Char → List Char
  | 0, _, acc => acc
  | fuel+1, n, acc =>
    if n < 10 then digitChar n :: acc
    else natDecAux fuel (n / 10) (digitChar (n % 10) :: acc)

/-- Decimal digits of a natural number: the model of Python `str(n)` for `n ≥ 0`. -/
def natChars (n : Nat) : List Char := natDecAux (n + 1) n []

def natStr (n : Nat) : String := String.mk (natChars n)

/-- Decimal notation of an integer: the model of Python `str(n)`. -/
def intChars (i : Int) : List Char :=
  match i with
  | .ofNat n => natChars n
  | .negSucc n => '-' :: natChars (n + 1)

def intStr (i : Int) : String := String.mk (intChars i)

/-- Maximal runs of ASCII digits: the model of `re.findall(r'\d+', s)`.
The first argument is the current run, reversed. -/
def digitRunsGo : List Char → List Char → List (List Char)
  | [], cur => match cur with
    | [] => []
    | _ :: _ => [cur.reverse]
  | c :: cs, cur =>
    if c.isDigit then digitRunsGo cs (c :: cur)
    else match cur with
      | [] => digitRunsGo cs []
      | _ :: _ => cur.reverse :: digitRunsGo cs []

def digitRuns (cs : List Char) : List (List Char) := digitRunsGo cs []

/-- Split on a separator character: the model of Python `s.split(sep)`. -/
def splitChGo (sep : Char) : List Char → List Char → List (List Char)
  | [], cur => [cur.reverse]
  | c :: cs, cur =>
    if c = sep then cur.reverse :: splitChGo sep cs []
    else splitChGo sep cs (c :: cur)

def splitCh (sep : Char) (cs : List Char) : List (List Char) := splitChGo sep cs []

/-- Model of `s[1:] if s.startswith('v') else s`. -/
def stripVCh : List Char → List Char
  | 'v' :: cs => cs
  | cs => cs

/-- Model of `re.sub(r'-.*$', '', s)`: drop everything from the first dash. -/
def stripDashCh (cs : List Char) : List Char := cs.takeWhile (fun c => c ≠ '-')

/-- Is `pat` a prefix of `cs`?  Model of Python `s.startswith(pat)`. -/
def startsWithCh : List Char → List Char → Bool
  | [], _ => true
  | _ :: _, [] => false
  | p :: ps, c :: cs => p = c && startsWithCh ps cs

/-- Does `cs` contain `pat` as a contiguous substring?  Model of Python `pat in s`. -/
def hasSubstrCh (pat : List Char) : List Char → Bool
  | [] => pat.isEmpty
  | c :: rest => startsWithCh pat (c :: rest) || hasSubstrCh pat rest

/-! ### Custom rules -/

/-- A per-image-family custom rule: the fields of the `custom_rules[image_base]`
dict that the engine reads; an absent dict key is `none`. -/
structure Rule where
  level : Option Nat := none
  lts_versions : Option (List Int) := none
  step_by : Option Int := none
  skip_versions : Option (List String) := none

/-- Read-only lookup in an insertion-ordered dict. -/
def findAssoc {α : Type} (l : List (String × α)) (k : String) : Option α :=
  match l.find? (fun p => p.1 == k) with
  | some p => some p.2
  | none => none

/-! ### Generic stable insertion sort (the model of Python `sorted`) -/

def insLe {α : Type} (le : α → α → Bool) (a : α) : List α → List α
  | [] => [a]
  | b :: l => if le a b then a :: b :: l else b :: insLe le a l

/-- Stable insertion sort: an element entering from the left is placed before
the equal elements already present, exactly as Python's stable `sorted`. -/
def insSort {α : Type} (le : α → α → Bool) : List α → List α
  | [] => []
  | a :: l => insLe le a (insSort le l)

/-! ### check_lts_version (version_utils.py, lines 5-56) -/

/-- First digit run of a tag, as a number: the model of
`re.search(r'^\D*(\d+)', tag)`; `none` when the tag has no digits
(including the falsy empty tag). -/
def leadingNat (s : String) : Option Nat := (digitRuns s.data).head?.map digitsVal

/-- First LTS entry above `c` in sorted order: the `next_lts` loop. -/
def nextLts (lts : List Int) (c : Nat) : Option Int :=
  (insSort (fun a b => decide (a ≤ b)) lts).find? (fun x => decide ((c : Int) < x))

def check_lts_version (current_tag recommended_tag : String)
    (custom_rules : List (String × Rule)) (image_base : String) : Bool :=
  match (findAssoc custom_rules image_base).bind Rule.lts_versions with
  | none => true
  | some lts =>
    match leadingNat current_tag, leadingNat recommended_tag with
    | some c, some r =>
      if (c : Int) ∉ lts then true
      else if (r : Int) ∈ lts then true
      else
        match nextLts lts c with
        | some nl => if nl = 0 then false else decide (nl < (r : Int))
        | none => false
    | some c, none => if (c : Int) ∉ lts then true else true
    | none, some r => if (r : Int) ∈ lts then true else true
    | none, none => true

/-! ### calculate_version_gap (version_utils.py, lines 58-173) -/

/-- Pad the extracted numeric parts with zeros to length 3 and truncate to the
first three: `while len < 3: append('0')` followed by `[:3]`. -/
def pad3 (l : List Nat) : Nat × Nat × Nat := (l.getD 0 0, l.getD 1 0, l.getD 2 0)

/-- Python `range(lo + 1, hi + 1)`. -/
def rangeSucc (lo hi : Nat) : List Nat := List.range' (lo + 1) (hi - lo)

/-- Keep the steps whose decimal string is not in the skip list:
`if str(j) not in skip_versions`. -/
def skipFilter (skip : List String) (js : List Nat) : List Nat :=
  js.filter (fun j => natStr j ∉ skip)

/-- The `v` prefix format taken from the recommended tag. -/
def vPre (cs : List Char) : List Char :=
  match cs with
  | 'v' :: _ => ['v']
  | _ => []

def missingMajor (pre : List Char) (cp rp : Nat × Nat × Nat) (skip : List String) :
    List String :=
  if cp.1 = 0 ∧ rp.1 = 0 then
    -- "For 0.x.x versions, treat it specially" (unreachable when rp.1 > cp.1,
    -- kept from the source)
    (skipFilter skip (rangeSucc cp.2.1 rp.2.1)).map
      (fun j => String.mk (pre ++ '0' :: '.' :: natChars j))
  else
    (skipFilter skip (rangeSucc cp.1 rp.1)).map
      (fun j => String.mk (pre ++ natChars j))

def missingMinor (pre : List Char) (cp rp : Nat × Nat × Nat) (skip : List String) :
    List String :=
  (skipFilter skip (rangeSucc cp.2.1 rp.2.1)).map
    (fun j => String.mk (pre ++ natChars cp.1 ++ '.' :: natChars j))

def missingPatch (pre : List Char) (cp rp : Nat × Nat × Nat) (skip : List String) :
    List String :=
  (skipFilter skip (rangeSucc cp.2.2 rp.2.2)).map
    (fun j => String.mk (pre ++ natChars cp.1 ++ '.' :: natChars cp.2.1 ++ '.' :: natChars j))

/-- The step-by-N adjustment of the gap at the major axis.  Float division
`(r0 - c0) / step_by` is modelled as exact rational division:
`is_integer()` is divisibility, `int(steps)` is truncation toward zero.
`step_by = 0` raises `ZeroDivisionError`, caught by the `except`: the whole
call returns `None`. -/
def stepAdjust (step : Option Int) (c0 r0 : Nat) (g : Int) : Option Int :=
  match step with
  | none => some g
  | some sb =>
    if sb = 0 then none
    else
      let diff : Int := (r0 : Int) - (c0 : Int)
      if diff % sb = 0 then some (diff / sb)
      else if 0 < sb then some ((diff.toNat / sb.toNat : Nat) : Int)
      else some 1

/-- The `for i in range(version_level)` comparison loop.  The parts lists
always have length exactly 3, so the `i >= len` break only fires for
`version_level > 3`, making any level above 3 behave like 3. -/
def cvgLoop (level : Nat) (cp rp : Nat × Nat × Nat) (pre : List Char)
    (skip : List String) (step : Option Int) : Option (Int × List String) :=
  if level = 0 then some (0, [])
  else if cp.1 < rp.1 then
    let m := missingMajor pre cp rp skip
    (stepAdjust step cp.1 rp.1 (m.length : Int)).map (fun g => (g, m))
  else if rp.1 < cp.1 then some (0, [])
  else if level ≤ 1 then some (0, [])
  else if cp.2.1 < rp.2.1 then some ((missingMinor pre cp rp skip).length, missingMinor pre cp rp skip)
  else if rp.2.1 < cp.2.1 then some (0, [])
  else if level ≤ 2 then some (0, [])
  else if cp.2.2 < rp.2.2 then some ((missingPatch pre cp rp skip).length, missingPatch pre cp rp skip)
  else if rp.2.2 < cp.2.2 then some (0, [])
  else some (0, [])

def calculate_version_gap (current_tag recommended_tag : String) (version_level : Nat)
    (custom_rules : List (String × Rule)) (image_base : Option String) :
    Option (Int × List String) :=
  let rule := image_base.bind (fun b => findAssoc custom_rules b)
  let skip_versions := (rule.bind Rule.skip_versions).getD []
  let cruns := digitRuns (stripDashCh (stripVCh current_tag.data))
  let rruns := digitRuns (stripDashCh (stripVCh recommended_tag.data))
  if cruns.isEmpty || rruns.isEmpty then none
  else
    cvgLoop version_level (pad3 (cruns.map digitsVal)) (pad3 (rruns.map digitsVal))
      (vPre recommended_tag.data) skip_versions (rule.bind Rule.step_by)

/-! ### is_valid_version_tag (utils/registry_utils.py, lines 91-108) -/

/-- The character class `[a-z0-9]`. -/
def isLowerAlnum (c : Char) : Bool := ('a' ≤ c && c ≤ 'z') || c.isDigit

/-- The optional `(-[a-z0-9]+)?$` tail of the version pattern. -/
def vpatSuffix : List Char → Bool
  | [] => true
  | '-' :: rest => !rest.isEmpty && rest.all isLowerAlnum
  | _ => false

/-- Up to `fuel` further `(\.\d+)` groups, then the optional suffix.
Greedy matching without backtracking is complete here: after the dot groups
only `-` or the end may follow, so consuming a maximal digit run never
forfeits a match. -/
def vpatGroups : Nat → List Char → Bool
  | 0, cs => vpatSuffix cs
  | fuel+1, cs =>
    match cs with
    | '.' :: rest =>
      !(rest.takeWhile Char.isDigit).isEmpty &&
        vpatGroups fuel (rest.dropWhile Char.isDigit)
    | _ => vpatSuffix cs

/-- Model of `re.match(r'^v?\d+(\.\d+){0,3}(-[a-z0-9]+)?$', tag)`. -/
def matchVPat (cs : List Char) : Bool :=
  let cs1 := stripVCh cs
  !(cs1.takeWhile Char.isDigit).isEmpty && vpatGroups 3 (cs1.dropWhile Char.isDigit)

/-- Model of `sum(len(digit) for digit in re.findall(r'\d+', tag))`. -/
def totalDigitsCount (cs : List Char) : Nat := ((digitRuns cs).map List.length).sum

def is_valid_version_tag (tag : String) : Bool :=
  let cs := tag.data
  if 6 ≤ cs.length && cs.all Char.isDigit then false
  else if 4 < (digitRuns cs).length then false
  else if 8 < totalDigitsCount cs then false
  else matchVPat cs

/-! ### detect_version_level (version_utils.py, lines 175-293) -/

/-- Model of `base_image_name.split('/')[-1]`. -/
def lastSeg (s : String) : String := String.mk ((splitCh '/' s.data).getLastD [])

/-- The built-in per-family table of significant version levels. -/
def special_cases : List (String × Nat) :=
  [("debian", 1), ("ubuntu", 1), ("centos", 1), ("alpine", 2), ("nginx", 2),
   ("node", 1), ("python", 2), ("php", 2), ("golang", 2), ("postgres", 2),
   ("mysql", 1), ("mariadb", 2), ("mongo", 2), ("redis", 2)]

/-- The `clean_tag` computation: strip the `v` marker and the `-...` suffix. -/
def cleanTagCh (t : String) : List Char := stripDashCh (stripVCh t.data)

/-- Model of `packaging.version.parse` restricted to the strings this code feeds it
(already validated and stripped, hence of the shape `\d+(\.\d+)*`): the list
of numeric components; `none` on anything else, mirroring the `except: pass`. -/
def pyVersionParse (cs : List Char) : Option (List Nat) :=
  let gs := splitCh '.' cs
  if gs.all (fun g => !g.isEmpty && g.all Char.isDigit) then some (gs.map digitsVal)
  else none

/-- Release-tuple comparison with zero padding, the ordering
`packaging.version` gives the parsed tags (`1.0 == 1.0.0 < 1.0.1`). -/
def verLe : List Nat → List Nat → Bool
  | [], _ => true
  | a :: as, [] => if a = 0 then verLe as [] else false
  | a :: as, b :: bs => if a < b then true else if b < a then false else verLe as bs

/-- Model of a `defaultdict(int)` bump, keys kept in first-assignment order. -/
def bumpKey (k : Nat) : List (Nat × Nat) → List (Nat × Nat)
  | [] => [(k, 1)]
  | (k', v) :: rest => if k' = k then (k', v + 1) :: rest else (k', v) :: bumpKey k rest

/-- Model of `max(items, key=lambda x: x[1])[0]`: the first key reaching the maximal
count in iteration (= insertion) order. -/
def firstMax (l : List (Nat × Nat)) : Option Nat :=
  match l with
  | [] => none
  | x :: xs => some ((xs.foldl (fun best y => if best.2 < y.2 then y else best) x).1)

/-- Pad a dot-split list with `"0"` entries to length 3. -/
def padStr3 (gs : List (List Char)) : List (List Char) :=
  gs ++ List.replicate (3 - gs.length) ['0']

/-- Lowest index in `0..2` where the padded segment strings differ
(the inner `for j in range(min(3, len(prev_parts)))` loop with `break`). -/
def pairDiffIdx (p c : List (List Char)) : Option Nat :=
  if p.getD 0 [] ≠ c.getD 0 [] then some 0
  else if p.getD 1 [] ≠ c.getD 1 [] then some 1
  else if p.getD 2 [] ≠ c.getD 2 [] then some 2
  else none

def adjPairs {α : Type} : List α → List (α × α)
  | a :: b :: l => (a, b) :: adjPairs (b :: l)
  | _ => []

/-- Tally, over adjacent sorted pairs, of the lowest differing segment + 1. -/
def levelChanges (sortedClean : List (List Char)) : List (Nat × Nat) :=
  (adjPairs sortedClean).foldl (fun acc pr =>
    match pairDiffIdx (padStr3 (splitCh '.' pr.1)) (padStr3 (splitCh '.' pr.2)) with
    | some j => bumpKey (j + 1) acc
    | none => acc) []

/-- The statistical adjacent-pair analysis: sort the parsed version tags and
tally the lowest differing segment of each adjacent pair; `none` when there
are not at least two version tags or no pair differs. -/
def dvlStat (version_tags : List String) : Option Nat :=
  if 1 < version_tags.length then
    firstMax (levelChanges ((insSort (fun x y => verLe x.1 y.1)
      (version_tags.filterMap
        (fun t => (pyVersionParse (cleanTagCh t)).map
          (fun v => (v, cleanTagCh t))))).map Prod.snd))
  else none

/-- The dot-count fallback: most common segment count, mapped
1 to MAJOR, 2 to MINOR, 3-or-more to MINOR. -/
def dvlPattern (version_tags : List String) : Nat :=
  match firstMax (version_tags.foldl
      (fun acc t => bumpKey (splitCh '.' (cleanTagCh t)).length acc) []) with
  | some p => if p = 1 then 1 else 2
  | none => 1

/-- The analysis of the tag corpus: statistical pass, then dot-count
fallback, then the default level 1. -/
def dvlFallback (tags : List String) : Nat :=
  if (tags.filter is_valid_version_tag).isEmpty then 1
  else
    match dvlStat (tags.filter is_valid_version_tag) with
    | some l => l
    | none => dvlPattern (tags.filter is_valid_version_tag)

/-- The part of `detect_version_level` after the custom-rule check. -/
def detectAfterRules (tags : List String) (image_base : String) : Nat :=
  match findAssoc special_cases image_base with
  | some l => l
  | none => dvlFallback tags

def detect_version_level (tags : List String) (base_image_name : String)
    (custom_rules : List (String × Rule)) : Nat :=
  let image_base := lastSeg base_image_name
  match (findAssoc custom_rules image_base).bind Rule.level with
  | some l => l
  | none => detectAfterRules tags image_base

/-! ### find_recommended_tag (utils/registry_utils.py, lines 110-195) -/

/-- The `(\.\d+)*` groups of `^(v?\d+(\.\d+)*)(-.*)?$`, accumulating the
matched characters; stops at the end or at the first `-` (which begins the
`(-.*)?` tail).  `fuel` only bounds the recursion and is called with the
string length, which the consumed characters never exceed. -/
def baseGroupsGo : Nat → List Char → List Char → Option (List Char × List Char)
  | _, acc, [] => some (acc, [])
  | _, acc, '-' :: rest => some (acc, '-' :: rest)
  | 0, _, _ => none
  | fuel+1, acc, '.' :: rest =>
    let d := rest.takeWhile Char.isDigit
    if d.isEmpty then none
    else baseGroupsGo fuel (acc ++ '.' :: d) (rest.dropWhile Char.isDigit)
  | _+1, _, _ => none

/-- Model of `re.match(r'^(v?\d+(\.\d+)*)(-.*)?$', tag)`, returning group 1. -/
def baseMatch (t : String) : Option String :=
  let cs := t.data
  let cs1 := stripVCh cs
  let d := cs1.takeWhile Char.isDigit
  if d.isEmpty then none
  else
    match baseGroupsGo cs1.length (vPre cs ++ d) (cs1.dropWhile Char.isDigit) with
    | some (base, _) => some (String.mk base)
    | none => none

/-- Model of `re.match(r'^v?\d+(\.\d+)*-(.+)$', tag)`, returning group 2. -/
def variantOf (t : String) : Option String :=
  let cs1 := stripVCh t.data
  let d := cs1.takeWhile Char.isDigit
  if d.isEmpty then none
  else
    match baseGroupsGo cs1.length [] (cs1.dropWhile Char.isDigit) with
    | some (_, '-' :: rest) => if rest.isEmpty then none else some (String.mk rest)
    | _ => none

/-- The pre-release markers that are never recommended. -/
def preMarkers : List String := ["alpha", "beta", "rc", "dev", "test"]

def hasPreMarker (t : String) : Bool := preMarkers.any (fun m => hasSubstrCh m.data t.data)

/-- Model of `base_versions[base].append(tag)`, keys in first-appearance order. -/
def addToGroups (b t : String) : List (String × List String) → List (String × List String)
  | [] => [(b, [t])]
  | (b', ts) :: gs =>
    if b' = b then (b', ts ++ [t]) :: gs else (b', ts) :: addToGroups b t gs

/-- One iteration of the grouping loop of `find_recommended_tag`. -/
def groupStep (acc : List (String × List String)) (t : String) :
    List (String × List String) :=
  if hasPreMarker t then acc
  else match baseMatch t with
    | none => acc
    | some b => if is_valid_version_tag b then addToGroups b t acc else acc

def groupBases (tags : List String) : List (String × List String) :=
  tags.foldl groupStep []

def find_recommended_tag (tags : List String) (current_tag : Option String) :
    Option String :=
  if tags.isEmpty then none
  else
    let current_variant := current_tag.bind variantOf
    let numeric_versions := (groupBases tags).filterMap
      (fun bv => (pyVersionParse (stripVCh bv.1.data)).map (fun v => (v, bv.1, bv.2)))
    -- `if not numeric_versions: return None`, then the last of the stable sort
    match (insSort (fun x y => verLe x.1 y.1) numeric_versions).getLast? with
    | none => none
    | some (_, nb, nts) =>
      let fallback : Option String :=
        match nts.find? (fun t => t == nb) with
        | some t => some t
        | none => nts.head?
      match current_variant with
      | none => fallback
      | some cv =>
        match nts.find? (fun t => variantOf t == some cv) with
        | some t => some t
        | none =>
          let variant_search := nb.data ++ '-' :: cv.data
          match (tags.filter (fun t => startsWithCh variant_search t.data)).head? with
          | some t => some t
          | none => fallback

/-! ### The classification step of analyze_image_tags (src/image_analyzer.py, lines 101-173) -/

/-- The per-image verdict dict. -/
structure Verdict where
  image : String
  status : String
  gap : Option Int
  recommended : Option String
  current : Option String
  message : String
deriving DecidableEq

/-- The verdict as initialised at the top of `analyze_image_tags`. -/
def initialVerdict (image_name : String) : Verdict :=
  { image := image_name, status := "UNKNOWN", gap := none, recommended := none,
    current := none, message := "Status could not be determined" }

/-- Model of the dict lookup giving the level name; the orchestrator
only reaches the lookup with levels 1-3. -/
def level_name (l : Nat) : String :=
  if l = 1 then "major" else if l = 2 then "minor" else if l = 3 then "patch" else ""

/-- Lines 101-173 of `analyze_image_tags`: the state of the verdict after the
`if recommended_tag:` block, starting from the verdict `st0` in scope there
(always the initial UNKNOWN verdict when the code reaches line 101). -/
def analyze_classify (st0 : Verdict) (current_tag : String)
    (recommended_tag : Option String) (version_level : Nat) (threshold : Int)
    (custom_rules : List (String × Rule)) (image_base : String) : Verdict :=
  match recommended_tag with
  | none => { st0 with message := "Could not determine newest version" }
  | some rtag =>
    let is_valid_upgrade :=
      match (findAssoc custom_rules image_base).bind Rule.lts_versions with
      | some _ => check_lts_version current_tag rtag custom_rules image_base
      | none => true
    let st1 := { st0 with
      status := "UP-TO-DATE"
      recommended := some rtag
      current := some current_tag
      message := "Image is up-to-date" }
    if current_tag ≠ "" ∧ current_tag ≠ rtag then
      match calculate_version_gap current_tag rtag version_level custom_rules
          (some image_base) with
      | some (gap, _missing) =>
        let st2 := { st1 with gap := some gap }
        let lname := level_name version_level
        if 0 < gap then
          if threshold ≤ gap then
            if is_valid_upgrade = false then
              { st2 with
                status := "WARNING"
                message := "Image is " ++ intStr gap ++ " " ++ lname ++
                  " version(s) behind but violates LTS policy" }
            else
              { st2 with
                status := "OUTDATED"
                message := "Image is " ++ intStr gap ++ " " ++ lname ++
                  " version(s) behind" }
          else
            { st2 with
              message := "Image is " ++ intStr gap ++ " " ++ lname ++
                " version(s) behind but within threshold (" ++ intStr threshold ++ ")" }
        else st2
      | none => st1
    else st1

/-! ### Claim C1: the enumeration postcondition of calculate_version_gap -/

/-- Component of a padded version triple at an index. -/
def compIdx (c : Nat × Nat × Nat) : Nat → Nat
  | 0 => c.1
  | 1 => c.2.1
  | 2 => c.2.2
  | _ => 0

/-- Version string at axis `i` for step `j`, as the spec describes it. -/
def specFmt (pre : List Char) (c : Nat × Nat × Nat) (i : Nat) (j : Nat) : String :=
  if i = 0 then String.mk (pre ++ natChars j)
  else if i = 1 then String.mk (pre ++ natChars c.1 ++ '.' :: natChars j)
  else String.mk (pre ++ natChars c.1 ++ '.' :: natChars c.2.1 ++ '.' :: natChars j)

/-- The ordered intermediate versions strictly between current and recommended
(inclusive of recommended) at axis `i`, minus the skipped ones. -/
def specMissing (pre : List Char) (skip : List String) (c r : Nat × Nat × Nat)
    (i : Nat) : List String :=
  ((rangeSucc (compIdx c i) (compIdx r i)).filter (fun j => natStr j ∉ skip)).map
    (specFmt pre c i)

/-- Modelled from the spec's words (the enumeration postcondition of C1):
compare at the first differing component index below the level. -/
def calculate_version_gap_spec (current_tag recommended_tag : String) (level : Nat)
    (skip : List String) : Option (Int × List String) :=
  let cruns := digitRuns (stripDashCh (stripVCh current_tag.data))
  let rruns := digitRuns (stripDashCh (stripVCh recommended_tag.data))
  if cruns.isEmpty || rruns.isEmpty then none
  else
    let c := pad3 (cruns.map digitsVal)
    let r := pad3 (rruns.map digitsVal)
    let pre := vPre recommended_tag.data
    match (List.range level).find? (fun i => compIdx c i != compIdx r i) with
    | none => some (0, [])
    | some i =>
      if compIdx c i < compIdx r i then
        some (((specMissing pre skip c r i).length : Int), specMissing pre skip c r i)
      else some (0, [])

/-! ### Claim C2: the step_by rule -/

/-- The numeric parts a tag contributes to the gap computation. -/
def tagParts (s : String) : List Nat :=
  (digitRuns (stripDashCh (stripVCh s.data))).map digitsVal

/-- The (padded) major component of a tag. -/
def tagMajor (s : String) : Nat := (pad3 (tagParts s)).1

/-- The value of the final numeric component (trailing digit run) of a tag. -/
def trailingNat (s : String) : Nat :=
  digitsVal ((s.data.reverse.takeWhile Char.isDigit).reverse)

/-! ### Claim C8: is_valid_version_tag -/

/-- The groups part of the spec's description: each dot-separated group is a
non-empty integer string. -/
def GroupsOK (gs : List (List Char)) : Prop :=
  ∀ g ∈ gs, g ≠ [] ∧ g.all Char.isDigit = true

/-- The suffix part of the spec's description: nothing, or a single dash
followed by a non-empty lowercase-alphanumeric string. -/
def SuffixOK (rest : List Char) : Prop :=
  rest = [] ∨ ∃ suff, rest = '-' :: suff ∧ suff ≠ [] ∧ suff.all isLowerAlnum = true

/-- Joining in the `(\.\d+)*` style: every group preceded by a dot. -/
def dotJoin : List (List Char) → List Char
  | [] => []
  | g :: gs => '.' :: (g ++ dotJoin gs)

/-- Dot-separated joining: first group bare, the rest each preceded by a dot. -/
def joinDots : List (List Char) → List Char
  | [] => []
  | g :: gs => g ++ dotJoin gs

/-- A tag body decomposes as one-to-four non-empty integer groups joined by
dots, followed by an admissible suffix. -/
def FullDecomp (cs : List Char) : Prop :=
  ∃ gs rest, stripVCh cs = joinDots gs ++ rest ∧ 1 ≤ gs.length ∧ gs.length ≤ 4 ∧
    GroupsOK gs ∧ SuffixOK rest

/-- Modelled from the spec's words (claim C8), core part: split the tag at the
first dash; the pre-dash part, after an optional leading `v`, must consist of
1 to 4 dot-separated non-empty integer groups; the post-dash part, when
present, must be a non-empty lowercase-alphanumeric suffix. -/
def specCoreB (cs : List Char) : Bool :=
  let groups := splitCh '.' (stripVCh (cs.takeWhile (fun c => c ≠ '-')))
  decide (1 ≤ groups.length) && decide (groups.length ≤ 4) &&
    groups.all (fun g => !g.isEmpty && g.all Char.isDigit) &&
    (match cs.dropWhile (fun c => c ≠ '-') with
     | [] => true
     | _ :: suff => !suff.isEmpty && suff.all isLowerAlnum)

/-- Modelled from the spec's words (claim C8): accept exactly the tags with an
optional leading `v`, 1 to 4 dot-separated integer groups, and an optional
single dash suffix of lowercase alphanumerics — except pure digit strings of
length at least 6, tags with more than 4 numeric groups, and tags whose total
digit count exceeds 8. -/
def is_valid_version_tag_spec (tag : String) : Bool :=
  specCoreB tag.data &&
    !(decide (6 ≤ tag.data.length) && tag.data.all Char.isDigit) &&
    !(decide (4 < (digitRuns tag.data).length)) &&
    !(decide (8 < tag.data.countP Char.isDigit))

/-! ## Theorems -/

example : digitRuns "2.10-alpine3".data = [['2'], ['1', '0'], ['3']] := by decide
example : natStr 304 = "304" := by decide
example : intStr (-12) = "-12" := by decide
example : splitCh '.' "1..2".data = [['1'], [], ['2']] := by decide
example : hasSubstrCh "rc".data "1.2-rc1".data = true := by decide
example : hasSubstrCh "rc".data "1.2-al".data = false := by decide
example : String.mk ['v'] ++ natStr 3 = "v3" := by decide

example : calculate_version_gap "2.0.0" "4.0.0" 1 [] none = some (2, ["3", "4"]) := by decide
example : calculate_version_gap "2.1.0" "2.4.0" 2 [] none = some (3, ["2.2", "2.3", "2.4"]) := by decide
example : calculate_version_gap "2.1.1" "2.1.3" 3 [] none = some (2, ["2.1.2", "2.1.3"]) := by decide
example : calculate_version_gap "v2.0.0" "v4.0.0" 1 [] none = some (2, ["v3", "v4"]) := by decide
example : calculate_version_gap "2.0.0-alpine" "4.0.0-alpine" 1 [] none = some (2, ["3", "4"]) := by decide
example : calculate_version_gap "2.0.0" "2.0.0" 1 [] none = some (0, []) := by decide
example : calculate_version_gap "18" "22" 1
    [("node", { skip_versions := some ["19", "21", "23"] })] (some "node") =
    some (2, ["20", "22"]) := by decide
example : calculate_version_gap "18" "22" 1
    [("node", { step_by := some 2 })] (some "node") =
    some (2, ["19", "20", "21", "22"]) := by decide
example : calculate_version_gap "2" "3" 1
    [("node", { step_by := some 2 })] (some "node") = some (0, ["3"]) := by decide
example : calculate_version_gap "2" "6" 1
    [("node", { step_by := some (-2) })] (some "node") = some (-2, ["3", "4", "5", "6"]) := by decide
example : calculate_version_gap "latest" "1.2" 1 [] none = none := by decide
example : check_lts_version "16" "17" [("node", { lts_versions := some [16, 18, 20] })] "node" = false := by decide
example : check_lts_version "16" "18" [("node", { lts_versions := some [16, 18, 20] })] "node" = true := by decide
example : check_lts_version "17" "19" [("node", { lts_versions := some [16, 18, 20] })] "node" = true := by decide
example : check_lts_version "16" "16" [("node", { lts_versions := some [16, 18, 20, 22] })] "node" = true := by decide
example : check_lts_version "18" "19" [("node", { lts_versions := some [16, 18, 20, 22] })] "node" = false := by decide
example : check_lts_version "3.9" "3.10" [] "python" = true := by decide
example : check_lts_version "latest" "17" [("node", { lts_versions := some [16, 18, 20] })] "node" = true := by decide

example : is_valid_version_tag "20220101" = false := by decide
example : is_valid_version_tag "1.24-alpine" = true := by decide
example : is_valid_version_tag "1.2.3.4.5.6" = false := by decide
example : is_valid_version_tag "v2.1.0" = true := by decide
example : is_valid_version_tag "3.19" = true := by decide
example : is_valid_version_tag "latest" = false := by decide
example : is_valid_version_tag "1.2.3.4" = true := by decide
example : is_valid_version_tag "12345.67890" = false := by decide
example : is_valid_version_tag "1.24-Alpine" = false := by decide
example : is_valid_version_tag "1.24-" = false := by decide
example : is_valid_version_tag "" = false := by decide

example : detect_version_level ["1.0", "2.0"] "debian" [] = 1 := by decide
example : detect_version_level ["3.15", "3.16", "3.17"] "alpine" [] = 2 := by decide
example : detect_version_level ["1.0", "2.0"] "debian" [("debian", { level := some 2 })] = 2 := by decide
example : detect_version_level ["3.15", "3.16", "3.17"] "library/alpine" [("alpine", { level := some 1 })] = 1 := by decide
example : detect_version_level ["1.0.0", "2.0.0", "3.0.0", "4.0.0"] "unknown" [] = 1 := by decide
example : detect_version_level ["1.0.0", "1.1.0", "1.2.0", "1.3.0"] "unknown" [] = 2 := by decide
example : detect_version_level [] "unknown" [] = 1 := by decide
example : detect_version_level ["latest", "stable", "alpine"] "unknown" [] = 1 := by decide
example : detect_version_level ["1.0.0", "1.0.1"] "myservice" [] = 3 := by decide

example : baseMatch "v1.2.3-debug" = some "v1.2.3" := by decide
example : variantOf "1.24-alpine" = some "alpine" := by decide
example : variantOf "1.24" = none := by decide
example : find_recommended_tag [] none = none := by decide
example : find_recommended_tag ["3.18", "3.19", "latest"] none = some "3.19" := by decide
example : find_recommended_tag ["1.0", "1.2", "2.0-rc1"] none = some "1.2" := by decide
example : find_recommended_tag ["1.23-alpine", "1.24", "1.24-alpine"] (some "1.23-alpine") = some "1.24-alpine" := by decide
example : find_recommended_tag ["1.0-al", "1.2", "1.2-alpha"] (some "1.0-al") = some "1.2-alpha" := by decide

example : (analyze_classify (initialVerdict "foo") "latest" (some "1.2") 1 1 [] "foo").status
    = "UP-TO-DATE" := by decide
example : (analyze_classify (initialVerdict "node:16") "16" (some "18") 1 1
    [("node", { lts_versions := some [16, 18, 20] })] "node").status = "OUTDATED" := by decide
example : (analyze_classify (initialVerdict "node:16") "16" (some "17") 1 1
    [("node", { lts_versions := some [16, 18, 20] })] "node").status = "WARNING" := by decide
example : (analyze_classify (initialVerdict "node:16") "16" (some "17") 1 5
    [("node", { lts_versions := some [16, 18, 20] })] "node").status = "UP-TO-DATE" := by decide
example : (analyze_classify (initialVerdict "x") "2.0" (some "2.1") 1 1 [] "x").status
    = "UP-TO-DATE" := by decide

theorem missingMajor_eq_spec (pre : List Char) (c r : Nat × Nat × Nat)
    (skip : List String) (h : c.1 < r.1) :
    missingMajor pre c r skip = specMissing pre skip c r 0 := by
  have hne : ¬(c.1 = 0 ∧ r.1 = 0) := by omega
  simp [missingMajor, specMissing, specFmt, skipFilter, compIdx, hne]

theorem missingMinor_eq_spec (pre : List Char) (c r : Nat × Nat × Nat)
    (skip : List String) :
    missingMinor pre c r skip = specMissing pre skip c r 1 := by
  simp [missingMinor, specMissing, specFmt, skipFilter, compIdx]

theorem missingPatch_eq_spec (pre : List Char) (c r : Nat × Nat × Nat)
    (skip : List String) :
    missingPatch pre c r skip = specMissing pre skip c r 2 := by
  simp [missingPatch, specMissing, specFmt, skipFilter, compIdx]

theorem cvgLoop_eq_spec (level : Nat) (c r : Nat × Nat × Nat) (pre : List Char)
    (skip : List String) (hl : level = 1 ∨ level = 2 ∨ level = 3) :
    cvgLoop level c r pre skip none =
      match (List.range level).find? (fun i => compIdx c i != compIdx r i) with
      | none => some (0, [])
      | some i =>
        if compIdx c i < compIdx r i then
          some (((specMissing pre skip c r i).length : Int), specMissing pre skip c r i)
        else some (0, []) := by
  rcases hl with h | h | h <;> subst h
  · rw [show List.range 1 = [0] from rfl]
    rcases Nat.lt_trichotomy c.1 r.1 with h1 | h1 | h1
    · simp [cvgLoop, List.find?, stepAdjust, compIdx, h1,
        show (c.1 != r.1) = true by simp [bne_iff_ne]; omega,
        missingMajor_eq_spec pre c r skip h1]
    · simp [cvgLoop, List.find?, compIdx, h1]
    · simp [cvgLoop, List.find?, compIdx, h1, Nat.lt_asymm h1,
        show (c.1 != r.1) = true by simp [bne_iff_ne]; omega]
  · rw [show List.range 2 = [0, 1] from rfl]
    rcases Nat.lt_trichotomy c.1 r.1 with h1 | h1 | h1
    · simp [cvgLoop, List.find?, stepAdjust, compIdx, h1,
        show (c.1 != r.1) = true by simp [bne_iff_ne]; omega,
        missingMajor_eq_spec pre c r skip h1]
    · rcases Nat.lt_trichotomy c.2.1 r.2.1 with h2 | h2 | h2
      · simp [cvgLoop, List.find?, compIdx, h1, h2,
          show (c.2.1 != r.2.1) = true by simp [bne_iff_ne]; omega,
          missingMinor_eq_spec pre c r skip]
      · simp [cvgLoop, List.find?, compIdx, h1, h2]
      · simp [cvgLoop, List.find?, compIdx, h1, h2, Nat.lt_asymm h2,
          show (c.2.1 != r.2.1) = true by simp [bne_iff_ne]; omega]
    · simp [cvgLoop, List.find?, compIdx, h1, Nat.lt_asymm h1,
        show (c.1 != r.1) = true by simp [bne_iff_ne]; omega]
  · rw [show List.range 3 = [0, 1, 2] from rfl]
    rcases Nat.lt_trichotomy c.1 r.1 with h1 | h1 | h1
    · simp [cvgLoop, List.find?, stepAdjust, compIdx, h1,
        show (c.1 != r.1) = true by simp [bne_iff_ne]; omega,
        missingMajor_eq_spec pre c r skip h1]
    · rcases Nat.lt_trichotomy c.2.1 r.2.1 with h2 | h2 | h2
      · simp [cvgLoop, List.find?, compIdx, h1, h2,
          show (c.2.1 != r.2.1) = true by simp [bne_iff_ne]; omega,
          missingMinor_eq_spec pre c r skip]
      · rcases Nat.lt_trichotomy c.2.2 r.2.2 with h3 | h3 | h3
        · simp [cvgLoop, List.find?, compIdx, h1, h2, h3,
            show (c.2.2 != r.2.2) = true by simp [bne_iff_ne]; omega,
            missingPatch_eq_spec pre c r skip]
        · simp [cvgLoop, List.find?, compIdx, h1, h2, h3]
        · simp [cvgLoop, List.find?, compIdx, h1, h2, h3, Nat.lt_asymm h3,
            show (c.2.2 != r.2.2) = true by simp [bne_iff_ne]; omega]
      · simp [cvgLoop, List.find?, compIdx, h1, h2, Nat.lt_asymm h2,
          show (c.2.1 != r.2.1) = true by simp [bne_iff_ne]; omega]
    · simp [cvgLoop, List.find?, compIdx, h1, Nat.lt_asymm h1,
        show (c.1 != r.1) = true by simp [bne_iff_ne]; omega]

/-- Claim C1: for tags with extractable numeric components and level in
one-to-three, in the absence of a step_by rule, `calculate_version_gap`
returns exactly the spec's enumeration: at the first differing component
index below the level, if recommended exceeds current, the ordered list of
intermediate versions at that axis (inclusive of recommended) minus the
skipped ones, with gap the length of that filtered list; `(0, [])` when an
earlier component shows current ahead or all compared components are
equal. -/
theorem calculate_version_gap_enumeration (cur rcm : String) (level : Nat)
    (rules : List (String × Rule)) (ib : Option String)
    (hl : level = 1 ∨ level = 2 ∨ level = 3)
    (hstep : ((ib.bind (fun b => findAssoc rules b)).bind Rule.step_by) = none) :
    calculate_version_gap cur rcm level rules ib =
      calculate_version_gap_spec cur rcm level
        (((ib.bind (fun b => findAssoc rules b)).bind Rule.skip_versions).getD []) := by
  simp only [calculate_version_gap, calculate_version_gap_spec, hstep]
  split
  · rfl
  · exact cvgLoop_eq_spec level _ _ _ _ hl

/-- Witness for C1, covering the spec's three worked examples. -/
theorem calculate_version_gap_enumeration_witness :
    calculate_version_gap "2.0.0" "4.0.0" 1 [] none = some (2, ["3", "4"]) ∧
    calculate_version_gap "2.1.0" "2.4.0" 2 [] none = some (3, ["2.2", "2.3", "2.4"]) ∧
    calculate_version_gap "2.0.0" "2.0.0" 1 [] none = some (0, []) := by
  refine ⟨?_, ?_, ?_⟩
  · exact (calculate_version_gap_enumeration "2.0.0" "4.0.0" 1 [] none
      (Or.inl rfl) rfl).trans (by decide)
  · exact (calculate_version_gap_enumeration "2.1.0" "2.4.0" 2 [] none
      (Or.inr (Or.inl rfl)) rfl).trans (by decide)
  · exact (calculate_version_gap_enumeration "2.0.0" "2.0.0" 1 [] none
      (Or.inl rfl) rfl).trans (by decide)

/-- Counterexample to claim C2 as stated: with a `step_by` 2 rule and a major
difference of 1, the fractional path returns gap `int(0.5) = 0`, not
`max(floor(steps), 1) = 1`; a misaligned upgrade can therefore report gap 0. -/
theorem calculate_version_gap_step_fractional_zero :
    calculate_version_gap "2" "3" 1 [("node", { step_by := some 2 })] (some "node")
        = some (0, ["3"]) ∧
      calculate_version_gap "2" "3" 1 [("node", { step_by := some 2 })] (some "node")
        ≠ some (1, ["3"]) :=
  ⟨by decide, by decide⟩

theorem cvgLoop_step_pos (level : Nat) (c r : Nat × Nat × Nat) (pre : List Char)
    (skip : List String) (sb : Int) (hsb : 1 ≤ sb) (hl : 1 ≤ level)
    (hcr : c.1 < r.1) :
    cvgLoop level c r pre skip (some sb) =
      some ((((r.1 - c.1) / sb.toNat : Nat) : Int), missingMajor pre c r skip) := by
  simp only [cvgLoop, stepAdjust]
  rw [if_neg (by omega : ¬ level = 0), if_pos hcr]
  rw [if_neg (by omega : ¬ sb = 0)]
  have ha : ((r.1 : Int) - (c.1 : Int)) = ((r.1 - c.1 : Nat) : Int) := by omega
  have hb : sb = ((sb.toNat : Nat) : Int) := by omega
  by_cases hd : ((r.1 : Int) - (c.1 : Int)) % sb = 0
  · rw [if_pos hd]
    simp only [Option.map_some']
    congr 1
    rw [ha, hb, ← Int.ofNat_ediv]
    simp [Int.toNat_ofNat]
  · rw [if_neg hd, if_pos (by omega : (0 : Int) < sb)]
    simp only [Option.map_some']
    congr 2
    rw [ha]
    simp [Int.toNat_ofNat]

/-- Claim C2 (amended): when a positive `step_by` rule applies and the major
components differ with recommended ahead, the returned gap is the floor of
`(recommended_major - current_major) / step_by` — the exact quotient when the
difference is aligned to the cadence, and possibly 0 (not `max(floor, 1)`)
when it is not: the `else 1` branch is unreachable for a positive step. -/
theorem calculate_version_gap_step_by_floor (cur rcm : String) (level : Nat)
    (rules : List (String × Rule)) (ib : Option String) (sb : Int)
    (hstep : ((ib.bind (fun b => findAssoc rules b)).bind Rule.step_by) = some sb)
    (hsb : 1 ≤ sb) (hl : 1 ≤ level)
    (hc : tagParts cur ≠ []) (hr : tagParts rcm ≠ [])
    (hcr : tagMajor cur < tagMajor rcm) :
    ∃ m, calculate_version_gap cur rcm level rules ib =
      some ((((tagMajor rcm - tagMajor cur) / sb.toNat : Nat) : Int), m) := by
  have hc1 : digitRuns (stripDashCh (stripVCh cur.data)) ≠ [] := by
    intro hnil
    exact hc (by unfold tagParts; rw [hnil]; rfl)
  have hr1 : digitRuns (stripDashCh (stripVCh rcm.data)) ≠ [] := by
    intro hnil
    exact hr (by unfold tagParts; rw [hnil]; rfl)
  refine ⟨missingMajor (vPre rcm.data) (pad3 (tagParts cur)) (pad3 (tagParts rcm))
      (((ib.bind (fun b => findAssoc rules b)).bind Rule.skip_versions).getD []), ?_⟩
  simp only [calculate_version_gap, hstep]
  rw [if_neg (by simp [List.isEmpty_iff, hc1, hr1])]
  exact cvgLoop_step_pos level _ _ _ _ sb hsb hl hcr

/-- Witness for C2 (amended): `18 → 22` with step 2 is exactly 2 steps, while
`2 → 3` with step 2 gives gap 0. -/
theorem calculate_version_gap_step_by_floor_witness :
    (∃ m, calculate_version_gap "18" "22" 1 [("node", { step_by := some 2 })]
        (some "node") = some (2, m)) ∧
    ∃ m, calculate_version_gap "2" "3" 1 [("node", { step_by := some 2 })]
        (some "node") = some (0, m) := by
  constructor
  · obtain ⟨m, hm⟩ := calculate_version_gap_step_by_floor "18" "22" 1
      [("node", { step_by := some 2 })] (some "node") 2 rfl (by decide) (by decide)
      (by decide) (by decide) (by decide)
    have hX : (((tagMajor "22" - tagMajor "18") / (2 : Int).toNat : Nat) : Int) = 2 := by decide
    exact ⟨m, by rw [hm, hX]⟩
  · obtain ⟨m, hm⟩ := calculate_version_gap_step_by_floor "2" "3" 1
      [("node", { step_by := some 2 })] (some "node") 2 rfl (by decide) (by decide)
      (by decide) (by decide) (by decide)
    have hX : (((tagMajor "3" - tagMajor "2") / (2 : Int).toNat : Nat) : Int) = 0 := by decide
    exact ⟨m, by rw [hm, hX]⟩

/-! ### Claim C9: the shape of a returned gap result -/

theorem digitChar_isDigit (d : Nat) (h : d < 10) : (digitChar d).isDigit = true := by
  interval_cases d <;> decide

theorem digitVal_digitChar (d : Nat) (h : d < 10) : digitVal (digitChar d) = d := by
  interval_cases d <;> decide

theorem digitsVal_append_singleton (l : List Char) (c : Char) :
    digitsVal (l ++ [c]) = 10 * digitsVal l + digitVal c := by
  unfold digitsVal
  rw [List.foldl_append]
  rfl

theorem natDecAux_spec (fuel : Nat) : ∀ (n : Nat) (acc : List Char), n < fuel →
    ∃ ds, natDecAux fuel n acc = ds ++ acc ∧ (∀ c ∈ ds, c.isDigit = true) ∧
      digitsVal ds = n ∧ ds ≠ [] := by
  induction fuel with
  | zero => intro n acc h; omega
  | succ f ih =>
    intro n acc h
    by_cases h10 : n < 10
    · refine ⟨[digitChar n], by simp [natDecAux, h10], ?_, ?_, by simp⟩
      · intro c hc
        rw [List.mem_singleton] at hc
        subst hc
        exact digitChar_isDigit n h10
      · have hv := digitVal_digitChar n h10
        simp [digitsVal, hv]
    · have hq : n / 10 < f := by
        have h1 : n / 10 < n := Nat.div_lt_self (by omega) (by omega)
        omega
      obtain ⟨ds, hds, hdig, hval, hne⟩ := ih (n / 10) (digitChar (n % 10) :: acc) hq
      refine ⟨ds ++ [digitChar (n % 10)], ?_, ?_, ?_, by simp⟩
      · rw [show natDecAux (f + 1) n acc = natDecAux f (n / 10) (digitChar (n % 10) :: acc)
          from by simp [natDecAux, h10]]
        rw [hds]
        simp
      · intro c hc
        rcases List.mem_append.mp hc with h1 | h1
        · exact hdig c h1
        · rw [List.mem_singleton] at h1
          subst h1
          exact digitChar_isDigit _ (Nat.mod_lt _ (by omega))
      · rw [digitsVal_append_singleton, hval, digitVal_digitChar _ (Nat.mod_lt _ (by omega))]
        omega

theorem natChars_spec (n : Nat) :
    (∀ c ∈ natChars n, c.isDigit = true) ∧ digitsVal (natChars n) = n := by
  obtain ⟨ds, hds, hdig, hval, _⟩ := natDecAux_spec (n + 1) n [] (by omega)
  unfold natChars
  rw [hds, List.append_nil]
  exact ⟨hdig, hval⟩

theorem takeWhile_append_all {p : Char → Bool} (l1 l2 : List Char)
    (h : ∀ c ∈ l1, p c = true) :
    (l1 ++ l2).takeWhile p = l1 ++ l2.takeWhile p := by
  induction l1 with
  | nil => simp
  | cons a l ih =>
    simp only [List.cons_append, List.takeWhile_cons]
    rw [h a (by simp)]
    simp [ih (fun c hc => h c (by simp [hc]))]

theorem trailingNat_mk_append (a : List Char) (j : Nat)
    (ha : ∀ c, a.getLast? = some c → c.isDigit = false) :
    trailingNat (String.mk (a ++ natChars j)) = j := by
  show digitsVal (((a ++ natChars j).reverse.takeWhile Char.isDigit).reverse) = j
  rw [List.reverse_append]
  rw [takeWhile_append_all _ _ (fun c hc => (natChars_spec j).1 c (List.mem_reverse.mp hc))]
  have hrest : a.reverse.takeWhile Char.isDigit = [] := by
    cases hA : a.reverse with
    | nil => simp
    | cons c t =>
      have hc : a.reverse.head? = some c := by rw [hA]; rfl
      rw [List.head?_reverse] at hc
      simp [List.takeWhile_cons, ha c hc]
  rw [hrest, List.append_nil, List.reverse_reverse]
  exact (natChars_spec j).2

theorem pairwise_trailing_map (a : List Char) (js : List Nat)
    (ha : ∀ c, a.getLast? = some c → c.isDigit = false)
    (hjs : List.Pairwise (· < ·) js) :
    List.Pairwise (· < ·)
      ((js.map (fun j => String.mk (a ++ natChars j))).map trailingNat) := by
  rw [List.map_map, List.pairwise_map]
  refine hjs.imp ?_
  intro x y hxy
  simpa [Function.comp, trailingNat_mk_append a x ha, trailingNat_mk_append a y ha]
    using hxy

theorem pairwise_skipFilter (skip : List String) (lo hi : Nat) :
    List.Pairwise (· < ·) (skipFilter skip (rangeSucc lo hi)) :=
  (List.pairwise_lt_range' _ _).filter _

theorem getLast_isDigit_false_concat (l : List Char) (d : Char) (hd : d.isDigit = false) :
    ∀ c, (l ++ [d]).getLast? = some c → c.isDigit = false := by
  intro c hc
  rw [List.getLast?_concat] at hc
  cases hc
  exact hd

theorem pairwise_missingMajor (pre : List Char) (c r : Nat × Nat × Nat)
    (skip : List String)
    (hpre : ∀ ch, pre.getLast? = some ch → ch.isDigit = false) :
    List.Pairwise (· < ·) ((missingMajor pre c r skip).map trailingNat) := by
  unfold missingMajor
  split
  · have hfmt : ∀ j : Nat, pre ++ '0' :: '.' :: natChars j =
        ((pre ++ ['0']) ++ ['.']) ++ natChars j := by
      intro j; simp
    simp only [hfmt]
    exact pairwise_trailing_map _ _
      (getLast_isDigit_false_concat _ '.' (by decide)) (pairwise_skipFilter _ _ _)
  · exact pairwise_trailing_map _ _ hpre (pairwise_skipFilter _ _ _)

theorem pairwise_missingMinor (pre : List Char) (c r : Nat × Nat × Nat)
    (skip : List String)
    (hpre : ∀ ch, pre.getLast? = some ch → ch.isDigit = false) :
    List.Pairwise (· < ·) ((missingMinor pre c r skip).map trailingNat) := by
  unfold missingMinor
  have hfmt : ∀ j : Nat, pre ++ natChars c.1 ++ '.' :: natChars j =
      ((pre ++ natChars c.1) ++ ['.']) ++ natChars j := by
    intro j; simp
  simp only [hfmt]
  exact pairwise_trailing_map _ _
    (getLast_isDigit_false_concat _ '.' (by decide)) (pairwise_skipFilter _ _ _)

theorem pairwise_missingPatch (pre : List Char) (c r : Nat × Nat × Nat)
    (skip : List String)
    (hpre : ∀ ch, pre.getLast? = some ch → ch.isDigit = false) :
    List.Pairwise (· < ·) ((missingPatch pre c r skip).map trailingNat) := by
  unfold missingPatch
  have hfmt : ∀ j : Nat,
      pre ++ natChars c.1 ++ '.' :: natChars c.2.1 ++ '.' :: natChars j =
      ((pre ++ natChars c.1 ++ '.' :: natChars c.2.1) ++ ['.']) ++ natChars j := by
    intro j; simp
  simp only [hfmt]
  exact pairwise_trailing_map _ _
    (getLast_isDigit_false_concat _ '.' (by decide)) (pairwise_skipFilter _ _ _)

theorem cvgLoop_invariant (level : Nat) (c r : Nat × Nat × Nat) (pre : List Char)
    (skip : List String) (step : Option Int)
    (hpre : ∀ ch, pre.getLast? = some ch → ch.isDigit = false)
    (hstep : ∀ sb, step = some sb → 0 ≤ sb)
    (g : Int) (m : List String)
    (h : cvgLoop level c r pre skip step = some (g, m)) :
    0 ≤ g ∧ List.Pairwise (· < ·) (m.map trailingNat) := by
  simp only [cvgLoop] at h
  split at h
  · obtain ⟨rfl, rfl⟩ := Prod.mk.injEq .. ▸ Option.some.inj h
    exact ⟨le_refl 0, by simp⟩
  split at h
  · obtain ⟨g', hg', hpair⟩ := Option.map_eq_some'.mp h
    obtain ⟨rfl, rfl⟩ := Prod.mk.injEq .. ▸ hpair
    refine ⟨?_, pairwise_missingMajor pre c r skip hpre⟩
    simp only [stepAdjust] at hg'
    split at hg'
    · exact Option.some.inj hg' ▸ Int.natCast_nonneg _
    case _ sb =>
      have hsb := hstep sb rfl
      split at hg'
      · cases hg'
      · split at hg'
        · refine Option.some.inj hg' ▸ Int.ediv_nonneg (by omega) hsb
        · split at hg'
          · exact Option.some.inj hg' ▸ Int.natCast_nonneg _
          · exact Option.some.inj hg' ▸ by omega
  split at h
  · obtain ⟨rfl, rfl⟩ := Prod.mk.injEq .. ▸ Option.some.inj h
    exact ⟨le_refl 0, by simp⟩
  split at h
  · obtain ⟨rfl, rfl⟩ := Prod.mk.injEq .. ▸ Option.some.inj h
    exact ⟨le_refl 0, by simp⟩
  split at h
  · obtain ⟨rfl, rfl⟩ := Prod.mk.injEq .. ▸ Option.some.inj h
    exact ⟨Int.natCast_nonneg _, pairwise_missingMinor pre c r skip hpre⟩
  split at h
  · obtain ⟨rfl, rfl⟩ := Prod.mk.injEq .. ▸ Option.some.inj h
    exact ⟨le_refl 0, by simp⟩
  split at h
  · obtain ⟨rfl, rfl⟩ := Prod.mk.injEq .. ▸ Option.some.inj h
    exact ⟨le_refl 0, by simp⟩
  split at h
  · obtain ⟨rfl, rfl⟩ := Prod.mk.injEq .. ▸ Option.some.inj h
    exact ⟨Int.natCast_nonneg _, pairwise_missingPatch pre c r skip hpre⟩
  split at h
  · obtain ⟨rfl, rfl⟩ := Prod.mk.injEq .. ▸ Option.some.inj h
    exact ⟨le_refl 0, by simp⟩
  · obtain ⟨rfl, rfl⟩ := Prod.mk.injEq .. ▸ Option.some.inj h
    exact ⟨le_refl 0, by simp⟩

/-- Counterexample to claim C9 as stated: over all rule sets the gap is not
always non-negative — a negative `step_by` entry yields a negative gap. -/
theorem calculate_version_gap_negative_gap :
    calculate_version_gap "2" "6" 1 [("node", { step_by := some (-2) })] (some "node")
        = some (-2, ["3", "4", "5", "6"]) ∧ ¬ (0 : Int) ≤ -2 :=
  ⟨by decide, by decide⟩

theorem vPre_getLast (cs : List Char) :
    ∀ ch, (vPre cs).getLast? = some ch → ch.isDigit = false := by
  intro ch hch
  unfold vPre at hch
  split at hch
  · cases hch
    decide
  · cases hch

/-- Claim C9 (amended): for every pair of tags, level and rule set whose
applicable `step_by` (if any) is non-negative, whenever
`calculate_version_gap` returns a pair the gap is non-negative and the
missing versions are in strictly increasing order of their final numeric
component. -/
theorem calculate_version_gap_invariant (cur rcm : String) (level : Nat)
    (rules : List (String × Rule)) (ib : Option String)
    (hstep : ∀ sb, ((ib.bind (fun b => findAssoc rules b)).bind Rule.step_by) = some sb →
      0 ≤ sb)
    (g : Int) (m : List String)
    (h : calculate_version_gap cur rcm level rules ib = some (g, m)) :
    0 ≤ g ∧ List.Pairwise (· < ·) (m.map trailingNat) := by
  simp only [calculate_version_gap] at h
  split at h
  · cases h
  · exact cvgLoop_invariant level _ _ _ _ _ (vPre_getLast rcm.data) hstep g m h

/-- Witness for C9 (amended), at the `2.0.0 → 4.0.0` instance. -/
theorem calculate_version_gap_invariant_witness :
    (0 : Int) ≤ 2 ∧ List.Pairwise (· < ·) ((["3", "4"].map trailingNat)) :=
  calculate_version_gap_invariant "2.0.0" "4.0.0" 1 [] none
    (fun _ h => by cases h) 2 ["3", "4"] (by decide)

/-! ### Properties of the insertion sort and of find? on sorted lists -/

theorem mem_insLe {α : Type} (le : α → α → Bool) (a x : α) (l : List α) :
    x ∈ insLe le a l ↔ x = a ∨ x ∈ l := by
  induction l with
  | nil => simp [insLe]
  | cons b t ih =>
    simp only [insLe]
    split
    · simp [List.mem_cons]
    · simp only [List.mem_cons, ih]
      tauto

theorem mem_insSort {α : Type} (le : α → α → Bool) (x : α) (l : List α) :
    x ∈ insSort le l ↔ x ∈ l := by
  induction l with
  | nil => simp [insSort]
  | cons a t ih => simp [insSort, mem_insLe, ih]

theorem pairwise_insLe {α : Type} (le : α → α → Bool)
    (htot : ∀ a b, le a b = true ∨ le b a = true)
    (htrans : ∀ a b c, le a b = true → le b c = true → le a c = true)
    (a : α) (l : List α) (hl : List.Pairwise (fun x y => le x y = true) l) :
    List.Pairwise (fun x y => le x y = true) (insLe le a l) := by
  induction l with
  | nil => simp [insLe]
  | cons b t ih =>
    simp only [insLe]
    split
    case isTrue hab =>
      refine List.Pairwise.cons ?_ hl
      intro y hy
      rcases List.mem_cons.mp hy with rfl | hy
      · exact hab
      · exact htrans a b y hab ((List.pairwise_cons.mp hl).1 y hy)
    case isFalse hab =>
      have hba : le b a = true := (htot a b).resolve_left (by simpa using hab)
      refine List.Pairwise.cons ?_ (ih (List.pairwise_cons.mp hl).2)
      intro y hy
      rw [mem_insLe] at hy
      rcases hy with rfl | hy
      · exact hba
      · exact (List.pairwise_cons.mp hl).1 y hy

theorem pairwise_insSort {α : Type} (le : α → α → Bool)
    (htot : ∀ a b, le a b = true ∨ le b a = true)
    (htrans : ∀ a b c, le a b = true → le b c = true → le a c = true)
    (l : List α) :
    List.Pairwise (fun x y => le x y = true) (insSort le l) := by
  induction l with
  | nil => simp [insSort]
  | cons a t ih => exact pairwise_insLe le htot htrans a _ ih

theorem find?_min_of_pairwise {α : Type} (le : α → α → Bool) (p : α → Bool)
    (l : List α) (hl : List.Pairwise (fun x y => le x y = true) l) (a : α)
    (h : l.find? p = some a) :
    ∀ x ∈ l, p x = true → le a x = true ∨ x = a := by
  induction l with
  | nil => cases h
  | cons b t ih =>
    intro x hx hpx
    by_cases hb : p b
    · rw [List.find?_cons_of_pos _ hb] at h
      cases h
      rcases List.mem_cons.mp hx with rfl | hx
      · exact Or.inr rfl
      · exact Or.inl ((List.pairwise_cons.mp hl).1 x hx)
    · rw [List.find?_cons_of_neg _ hb] at h
      rcases List.mem_cons.mp hx with rfl | hx
      · exact absurd hpx (by simpa using hb)
      · exact ih (List.pairwise_cons.mp hl).2 h x hx hpx

theorem mem_of_getLast?_some {α : Type} {l : List α} {z : α}
    (h : l.getLast? = some z) : z ∈ l := by
  obtain ⟨hne, hz⟩ := List.mem_getLast?_eq_getLast (Option.mem_def.mpr h)
  rw [hz]
  exact List.getLast_mem hne

theorem pairwise_getLast_ge {α : Type} (le : α → α → Bool) (l : List α)
    (hl : List.Pairwise (fun x y => le x y = true) l) (z : α)
    (hz : l.getLast? = some z) :
    ∀ x ∈ l, x = z ∨ le x z = true := by
  induction l with
  | nil => cases hz
  | cons a t ih =>
    cases t with
    | nil =>
      intro x hx
      rw [List.mem_singleton] at hx
      subst hx
      cases hz
      exact Or.inl rfl
    | cons b t2 =>
      intro x hx
      rw [List.getLast?_cons_cons] at hz
      rcases List.mem_cons.mp hx with rfl | hx
      · right
        exact (List.pairwise_cons.mp hl).1 z (mem_of_getLast?_some hz)
      · exact ih (List.pairwise_cons.mp hl).2 hz x hx

/-! ### Claims C5 and C10: check_lts_version -/

theorem nextLts_some (lts : List Int) (c : Nat) (nl : Int)
    (h : nextLts lts c = some nl) :
    nl ∈ lts ∧ (c : Int) < nl ∧ ∀ x ∈ lts, (c : Int) < x → nl ≤ x := by
  have hle : ∀ a b : Int, decide (a ≤ b) = true ∨ decide (b ≤ a) = true := by
    intro a b
    rcases Int.le_total a b with h1 | h1
    · exact Or.inl (by simpa using h1)
    · exact Or.inr (by simpa using h1)
  have htr : ∀ a b c : Int, decide (a ≤ b) = true → decide (b ≤ c) = true →
      decide (a ≤ c) = true := by
    intro a b c h1 h2
    simp only [decide_eq_true_eq] at h1 h2 ⊢
    omega
  have hpw := pairwise_insSort (fun a b : Int => decide (a ≤ b)) hle htr lts
  have hmem : nl ∈ lts := by
    rw [← mem_insSort (fun a b : Int => decide (a ≤ b))]
    exact List.mem_of_find?_eq_some h
  have hp := List.find?_some h
  simp only [decide_eq_true_eq] at hp
  refine ⟨hmem, hp, ?_⟩
  intro x hx hcx
  have hx' : x ∈ insSort (fun a b : Int => decide (a ≤ b)) lts :=
    (mem_insSort _ x lts).mpr hx
  have := find?_min_of_pairwise _ _ _ hpw nl h x hx' (by simpa using hcx)
  rcases this with h1 | h1
  · simpa using h1
  · omega

theorem nextLts_none (lts : List Int) (c : Nat) (h : nextLts lts c = none) :
    ∀ x ∈ lts, ¬ (c : Int) < x := by
  intro x hx hcx
  have hx' : x ∈ insSort (fun a b : Int => decide (a ≤ b)) lts :=
    (mem_insSort _ x lts).mpr hx
  have := List.find?_eq_none.mp h x hx'
  simp [hcx] at this

/-- Claim C5: with an lts_versions rule for the image base and both tags
parsable, `check_lts_version` is true exactly when the current major is not
LTS, or the recommended major is LTS, or the recommended major strictly
exceeds the smallest LTS entry greater than the current major; in particular
the spec's three node examples hold. -/
theorem check_lts_version_spec :
    (∀ (cur rcm : String) (rules : List (String × Rule)) (base : String)
      (lts : List Int) (c r : Nat),
      ((findAssoc rules base).bind Rule.lts_versions) = some lts →
      leadingNat cur = some c → leadingNat rcm = some r →
      (check_lts_version cur rcm rules base = true ↔
        ((c : Int) ∉ lts ∨ (r : Int) ∈ lts ∨
          ∃ nl ∈ lts, (c : Int) < nl ∧ (∀ x ∈ lts, (c : Int) < x → nl ≤ x) ∧
            nl < (r : Int)))) ∧
    check_lts_version "16" "17" [("node", { lts_versions := some [16, 18, 20] })] "node"
      = false ∧
    check_lts_version "16" "18" [("node", { lts_versions := some [16, 18, 20] })] "node"
      = true ∧
    check_lts_version "17" "19" [("node", { lts_versions := some [16, 18, 20] })] "node"
      = true := by
  refine ⟨?_, by decide, by decide, by decide⟩
  intro cur rcm rules base lts c r hlts hc hr
  simp only [check_lts_version, hlts, hc, hr]
  by_cases hcn : (c : Int) ∈ lts
  · by_cases hrn : (r : Int) ∈ lts
    · simp [hcn, hrn]
    · cases hnx : nextLts lts c with
      | none =>
        have hnone := nextLts_none lts c hnx
        simp only [if_neg (not_not.mpr hcn), if_neg hrn, hnx]
        constructor
        · intro hfalse
          simp at hfalse
        · rintro (h | h | ⟨nl, hmem, hlt, _, _⟩)
          · exact absurd hcn h
          · exact absurd h hrn
          · exact absurd hlt (hnone nl hmem)
      | some nl =>
        obtain ⟨hmem, hlt, hmin⟩ := nextLts_some lts c nl hnx
        have hnl0 : ¬ nl = 0 := by omega
        simp only [if_neg (not_not.mpr hcn), if_neg hrn, hnx, if_neg hnl0,
          decide_eq_true_eq]
        constructor
        · intro h2
          exact Or.inr (Or.inr ⟨nl, hmem, hlt, hmin, h2⟩)
        · rintro (h | h | ⟨nl', h1, h2, _, h4⟩)
          · exact absurd hcn h
          · exact absurd h hrn
          · have := hmin nl' h1 h2
            omega
  · simp [hcn]

/-- Witness for C5, instantiating the characterisation at the `16 → 17`
node example. -/
theorem check_lts_version_spec_witness :
    check_lts_version "16" "17" [("node", { lts_versions := some [16, 18, 20] })] "node"
        = true ↔
      ((16 : Int) ∉ [16, 18, 20] ∨ (17 : Int) ∈ [16, 18, 20] ∨
        ∃ nl ∈ [(16 : Int), 18, 20], (16 : Int) < nl ∧
          (∀ x ∈ [(16 : Int), 18, 20], (16 : Int) < x → nl ≤ x) ∧ nl < (17 : Int)) :=
  check_lts_version_spec.1 "16" "17" [("node", { lts_versions := some [16, 18, 20] })]
    "node" [16, 18, 20] 16 17 rfl rfl rfl

/-- Claim C10: an unparsable current or recommended tag (no leading integer)
can never produce an LTS violation: `check_lts_version` returns true. -/
theorem check_lts_version_unparsable (cur rcm : String)
    (rules : List (String × Rule)) (base : String)
    (h : leadingNat cur = none ∨ leadingNat rcm = none) :
    check_lts_version cur rcm rules base = true := by
  unfold check_lts_version
  split
  · rfl
  · rcases h with h | h
    · rw [h]
      cases hr : leadingNat rcm
      · rfl
      · simp only []
        split <;> rfl
    · rw [h]
      cases hc : leadingNat cur
      · rfl
      · simp only []
        split <;> rfl

/-- Witness for C10: `latest` has no leading integer, so the node LTS rule
cannot be violated. -/
theorem check_lts_version_unparsable_witness :
    check_lts_version "latest" "17" [("node", { lts_versions := some [16, 18, 20] })]
      "node" = true :=
  check_lts_version_unparsable "latest" "17"
    [("node", { lts_versions := some [16, 18, 20] })] "node" (Or.inl rfl)

/-! ### Claims C3 and C7: the classification step -/

theorem check_lts_version_no_rule (cur rcm : String) (rules : List (String × Rule))
    (base : String) (h : ((findAssoc rules base).bind Rule.lts_versions) = none) :
    check_lts_version cur rcm rules base = true := by
  simp only [check_lts_version, h]

/-- Claim C3: given a computed gap pair, the verdict follows the decision
table — gap 0 keeps UP-TO-DATE; a positive gap below the threshold keeps
UP-TO-DATE with the within-threshold message; at or above the threshold the
verdict is OUTDATED when the LTS check passed and WARNING when it failed
(LTS violation takes precedence). -/
theorem analyze_classify_decision_table (st0 : Verdict) (current rtag : String)
    (level : Nat) (threshold : Int) (rules : List (String × Rule)) (base : String)
    (g : Int) (m : List String)
    (h1 : current ≠ "") (h2 : current ≠ rtag)
    (hg : calculate_version_gap current rtag level rules (some base) = some (g, m)) :
    (g = 0 →
      (analyze_classify st0 current (some rtag) level threshold rules base).status
        = "UP-TO-DATE") ∧
    (0 < g → g < threshold →
      (analyze_classify st0 current (some rtag) level threshold rules base).status
          = "UP-TO-DATE" ∧
        (analyze_classify st0 current (some rtag) level threshold rules base).message
          = "Image is " ++ intStr g ++ " " ++ level_name level ++
            " version(s) behind but within threshold (" ++ intStr threshold ++ ")") ∧
    (0 < g → threshold ≤ g → check_lts_version current rtag rules base = true →
      (analyze_classify st0 current (some rtag) level threshold rules base).status
        = "OUTDATED") ∧
    (0 < g → threshold ≤ g → check_lts_version current rtag rules base = false →
      (analyze_classify st0 current (some rtag) level threshold rules base).status
        = "WARNING") := by
  have hiv : (match (findAssoc rules base).bind Rule.lts_versions with
      | some _ => check_lts_version current rtag rules base
      | none => true) = check_lts_version current rtag rules base := by
    cases h : (findAssoc rules base).bind Rule.lts_versions with
    | none => exact (check_lts_version_no_rule current rtag rules base h).symm
    | some _ => rfl
  simp only [analyze_classify, hiv]
  rw [if_pos (show current ≠ "" ∧ current ≠ rtag from ⟨h1, h2⟩)]
  simp only [hg]
  refine ⟨?_, ?_, ?_, ?_⟩
  · intro h0
    rw [if_neg (by omega)]
  · intro hpos hlt
    rw [if_pos hpos, if_neg (by omega)]
    exact ⟨rfl, rfl⟩
  · intro hpos hge hlts
    rw [if_pos hpos, if_pos hge, if_neg (by simp [hlts])]
  · intro hpos hge hlts
    rw [if_pos hpos, if_pos hge, if_pos hlts]

/-- Witness for C3: one concrete image per row of the decision table. -/
theorem analyze_classify_decision_table_witness :
    (analyze_classify (initialVerdict "x:2.0") "2.0" (some "2.1") 1 1 [] "x").status
        = "UP-TO-DATE" ∧
    (analyze_classify (initialVerdict "node:16") "16" (some "17") 1 5
        [("node", { lts_versions := some [16, 18, 20] })] "node").status = "UP-TO-DATE" ∧
    (analyze_classify (initialVerdict "node:16") "16" (some "18") 1 1
        [("node", { lts_versions := some [16, 18, 20] })] "node").status = "OUTDATED" ∧
    (analyze_classify (initialVerdict "node:16") "16" (some "17") 1 1
        [("node", { lts_versions := some [16, 18, 20] })] "node").status = "WARNING" := by
  refine ⟨?_, ?_, ?_, ?_⟩
  · exact (analyze_classify_decision_table (initialVerdict "x:2.0") "2.0" "2.1" 1 1 [] "x"
      0 [] (by decide) (by decide) (by decide)).1 rfl
  · exact ((analyze_classify_decision_table (initialVerdict "node:16") "16" "17" 1 5
      [("node", { lts_versions := some [16, 18, 20] })] "node" 1 ["17"]
      (by decide) (by decide) (by decide)).2.1 (by decide) (by decide)).1
  · exact (analyze_classify_decision_table (initialVerdict "node:16") "16" "18" 1 1
      [("node", { lts_versions := some [16, 18, 20] })] "node" 2 ["17", "18"]
      (by decide) (by decide) (by decide)).2.2.1 (by decide) (by decide) (by decide)
  · exact (analyze_classify_decision_table (initialVerdict "node:16") "16" "17" 1 1
      [("node", { lts_versions := some [16, 18, 20] })] "node" 1 ["17"]
      (by decide) (by decide) (by decide)).2.2.2 (by decide) (by decide) (by decide)

/-- Counterexample to claim C7 as stated: on the null-gap path the verdict is
UP-TO-DATE even though the status before the recommended-tag branch was
UNKNOWN — the orchestrator upgrades, it does not retain. -/
theorem analyze_classify_null_gap_upgrades :
    calculate_version_gap "latest" "1.2" 1 [] (some "foo") = none ∧
    (initialVerdict "foo:latest").status = "UNKNOWN" ∧
    (analyze_classify (initialVerdict "foo:latest") "latest" (some "1.2") 1 1 []
      "foo").status = "UP-TO-DATE" :=
  ⟨by decide, by decide, by decide⟩

/-- Claim C7 (amended): when a recommended tag exists, differs from the
current tag, and the gap computation returns null, the verdict keeps the
values set on entering the recommended branch: status "UP-TO-DATE" and
message "Image is up-to-date", regardless of the incoming status — a prior
UNKNOWN is thus upgraded on this path. -/
theorem analyze_classify_null_gap (st0 : Verdict) (current rtag : String)
    (level : Nat) (threshold : Int) (rules : List (String × Rule)) (base : String)
    (h1 : current ≠ "") (h2 : current ≠ rtag)
    (hg : calculate_version_gap current rtag level rules (some base) = none) :
    (analyze_classify st0 current (some rtag) level threshold rules base).status
        = "UP-TO-DATE" ∧
    (analyze_classify st0 current (some rtag) level threshold rules base).message
        = "Image is up-to-date" := by
  simp only [analyze_classify]
  rw [if_pos (show current ≠ "" ∧ current ≠ rtag from ⟨h1, h2⟩)]
  simp only [hg]
  exact ⟨trivial, trivial⟩

/-- Witness for C7 (amended), at the unparsable tag `latest`. -/
theorem analyze_classify_null_gap_witness :
    (analyze_classify (initialVerdict "foo:latest") "latest" (some "1.2") 1 1 []
        "foo").status = "UP-TO-DATE" ∧
    (analyze_classify (initialVerdict "foo:latest") "latest" (some "1.2") 1 1 []
        "foo").message = "Image is up-to-date" :=
  analyze_classify_null_gap (initialVerdict "foo:latest") "latest" "1.2" 1 1 [] "foo"
    (by decide) (by decide) (by decide)

/-! ### Claim C4: detect_version_level and the patch level -/

/-- Counterexample to claim C4 as stated: with no custom rule at all, the
statistical adjacent-pair fallback infers PATCH (level 3) from tags whose
adjacent pairs differ in the third component. -/
theorem detect_version_level_statistical_patch :
    detect_version_level ["1.0.0", "1.0.1"] "myservice" [] = 3 ∧
    findAssoc ([] : List (String × Rule)) (lastSeg "myservice") = none :=
  ⟨by decide, rfl⟩

theorem findAssoc_mem {α : Type} (l : List (String × α)) (k : String) (v : α)
    (h : findAssoc l k = some v) : ∃ p ∈ l, p.2 = v := by
  unfold findAssoc at h
  cases hf : l.find? (fun p => p.1 == k) with
  | none => rw [hf] at h; cases h
  | some p => rw [hf] at h; cases h; exact ⟨p, List.mem_of_find?_eq_some hf, rfl⟩

/-- Claim C4 (amended): the built-in table and the dot-count fallback return
only 1 or 2, so when no custom level-3 rule applies and fewer than two valid
version tags are present (the statistical adjacent-pair path cannot run),
`detect_version_level` never returns 3; the statistical path itself, however,
can return 3 without any rule. -/
theorem detect_version_level_no_patch (tags : List String) (base : String)
    (rules : List (String × Rule))
    (hrule : ((findAssoc rules (lastSeg base)).bind Rule.level) ≠ some 3)
    (hfew : (tags.filter is_valid_version_tag).length ≤ 1) :
    detect_version_level tags base rules ≠ 3 := by
  have hdef : detect_version_level tags base rules =
      (match (findAssoc rules (lastSeg base)).bind Rule.level with
       | some l => l
       | none => detectAfterRules tags (lastSeg base)) := rfl
  rw [hdef]
  cases hr : (findAssoc rules (lastSeg base)).bind Rule.level with
  | some l =>
    show l ≠ 3
    intro h
    exact hrule (by rw [hr, h])
  | none =>
    show detectAfterRules tags (lastSeg base) ≠ 3
    unfold detectAfterRules
    cases hs : findAssoc special_cases (lastSeg base) with
    | some l =>
      show l ≠ 3
      obtain ⟨p, hp, hpv⟩ := findAssoc_mem special_cases (lastSeg base) l hs
      have hval : ∀ q ∈ special_cases, q.2 = 1 ∨ q.2 = 2 := by decide
      have h2 := hval p hp
      omega
    | none =>
      show dvlFallback tags ≠ 3
      unfold dvlFallback
      cases hemp : (tags.filter is_valid_version_tag).isEmpty with
      | true =>
        show (1 : Nat) ≠ 3
        decide
      | false =>
        have hstat : dvlStat (tags.filter is_valid_version_tag) = none := by
          unfold dvlStat
          rw [if_neg (by omega)]
        show (match dvlStat (tags.filter is_valid_version_tag) with
              | some l => l
              | none => dvlPattern (tags.filter is_valid_version_tag)) ≠ 3
        rw [hstat]
        show dvlPattern (tags.filter is_valid_version_tag) ≠ 3
        unfold dvlPattern
        cases firstMax ((tags.filter is_valid_version_tag).foldl
            (fun acc t => bumpKey (splitCh '.' (cleanTagCh t)).length acc) []) with
        | none =>
          show (1 : Nat) ≠ 3
          decide
        | some p =>
          show (if p = 1 then 1 else 2 : Nat) ≠ 3
          by_cases hp : p = 1
          · rw [if_pos hp]
            decide
          · rw [if_neg hp]
            decide

/-- Witness for C4 (amended): a single valid tag cannot trigger level 3. -/
theorem detect_version_level_no_patch_witness :
    detect_version_level ["1.0.0"] "myservice" [] ≠ 3 :=
  detect_version_level_no_patch ["1.0.0"] "myservice" [] (by decide) (by decide)

/-! ### Claim C6: find_recommended_tag -/

theorem verLe_cons_cons (x y : Nat) (xs ys : List Nat) :
    verLe (x :: xs) (y :: ys) = true ↔ (x < y ∨ (x = y ∧ verLe xs ys = true)) := by
  by_cases h1 : x < y
  · simp [verLe, h1]
  · by_cases h2 : y < x
    · simp [verLe, h1, h2]
      omega
    · have hxy : x = y := by omega
      subst hxy
      simp [verLe, h1, h2]

theorem verLe_cons_nil (x : Nat) (xs : List Nat) :
    verLe (x :: xs) [] = true ↔ (x = 0 ∧ verLe xs [] = true) := by
  by_cases h : x = 0 <;> simp [verLe, h]

theorem verLe_refl (a : List Nat) : verLe a a = true := by
  induction a with
  | nil => rfl
  | cons x xs ih => simp [verLe_cons_cons, ih]

theorem verLe_total (a b : List Nat) : verLe a b = true ∨ verLe b a = true := by
  induction a generalizing b with
  | nil => exact Or.inl rfl
  | cons x xs ih =>
    cases b with
    | nil => exact Or.inr rfl
    | cons y ys =>
      rcases Nat.lt_trichotomy x y with h | h | h
      · exact Or.inl ((verLe_cons_cons x y xs ys).mpr (Or.inl h))
      · subst h
        rcases ih ys with h2 | h2
        · exact Or.inl ((verLe_cons_cons x x xs ys).mpr (Or.inr ⟨rfl, h2⟩))
        · exact Or.inr ((verLe_cons_cons x x ys xs).mpr (Or.inr ⟨rfl, h2⟩))
      · exact Or.inr ((verLe_cons_cons y x ys xs).mpr (Or.inl h))

theorem verLe_trans (a : List Nat) : ∀ b c, verLe a b = true → verLe b c = true →
    verLe a c = true := by
  induction a with
  | nil => intro b c _ _; rfl
  | cons x xs ih =>
    intro b c h1 h2
    cases b with
    | nil =>
      obtain ⟨rfl, hxs⟩ := (verLe_cons_nil x xs).mp h1
      cases c with
      | nil => exact (verLe_cons_nil 0 xs).mpr ⟨rfl, hxs⟩
      | cons z zs =>
        by_cases hz : 0 < z
        · exact (verLe_cons_cons 0 z xs zs).mpr (Or.inl hz)
        · have hz0 : z = 0 := by omega
          subst hz0
          exact (verLe_cons_cons 0 0 xs zs).mpr
            (Or.inr ⟨rfl, ih [] zs hxs rfl⟩)
    | cons y ys =>
      rcases (verLe_cons_cons x y xs ys).mp h1 with hlt | ⟨rfl, hxy⟩
      · cases c with
        | nil =>
          obtain ⟨rfl, _⟩ := (verLe_cons_nil y ys).mp h2
          omega
        | cons z zs =>
          rcases (verLe_cons_cons y z ys zs).mp h2 with h2a | ⟨rfl, _⟩
          · exact (verLe_cons_cons x z xs zs).mpr (Or.inl (by omega))
          · exact (verLe_cons_cons x y xs zs).mpr (Or.inl hlt)
      · cases c with
        | nil =>
          obtain ⟨rfl, hys⟩ := (verLe_cons_nil x ys).mp h2
          exact (verLe_cons_nil 0 xs).mpr ⟨rfl, ih [] [] (ih ys [] hxy hys) rfl⟩
        | cons z zs =>
          rcases (verLe_cons_cons x z ys zs).mp h2 with h2a | ⟨rfl, h2b⟩
          · exact (verLe_cons_cons x z xs zs).mpr (Or.inl h2a)
          · exact (verLe_cons_cons x x xs zs).mpr (Or.inr ⟨rfl, ih ys zs hxy h2b⟩)

theorem mem_addToGroups (b' x : String) (acc : List (String × List String))
    (b : String) (ts : List String) (h : (b, ts) ∈ addToGroups b' x acc) :
    (b, ts) ∈ acc ∨ (∃ ts0, (b, ts0) ∈ acc ∧ ts = ts0 ++ [x]) ∨ (b = b' ∧ ts = [x]) := by
  induction acc with
  | nil =>
    simp only [addToGroups, List.mem_singleton] at h
    obtain ⟨rfl, rfl⟩ := Prod.mk.injEq .. ▸ h
    exact Or.inr (Or.inr ⟨rfl, rfl⟩)
  | cons p gs ih =>
    obtain ⟨bb, tts⟩ := p
    simp only [addToGroups] at h
    split at h
    case isTrue heq =>
      rcases List.mem_cons.mp h with h1 | h1
      · obtain ⟨rfl, rfl⟩ := Prod.mk.injEq .. ▸ h1
        exact Or.inr (Or.inl ⟨tts, List.mem_cons_self .., rfl⟩)
      · exact Or.inl (List.mem_cons_of_mem _ h1)
    case isFalse heq =>
      rcases List.mem_cons.mp h with h1 | h1
      · exact Or.inl (List.mem_cons.mpr (Or.inl h1))
      · rcases ih h1 with h2 | ⟨ts0, h2, h3⟩ | h2
        · exact Or.inl (List.mem_cons_of_mem _ h2)
        · exact Or.inr (Or.inl ⟨ts0, List.mem_cons_of_mem _ h2, h3⟩)
        · exact Or.inr (Or.inr h2)

theorem groupBases_no_prerelease (tags : List String) :
    ∀ b ts, (b, ts) ∈ groupBases tags → ∀ t ∈ ts, hasPreMarker t = false := by
  have key : ∀ (l : List String) (acc : List (String × List String)),
      (∀ b ts, (b, ts) ∈ acc → ∀ t ∈ ts, hasPreMarker t = false) →
      ∀ b ts, (b, ts) ∈ l.foldl groupStep acc → ∀ t ∈ ts, hasPreMarker t = false := by
    intro l
    induction l with
    | nil => intro acc hacc; simpa using hacc
    | cons x l ih =>
      intro acc hacc
      rw [List.foldl_cons]
      apply ih
      intro b ts hmem t ht
      unfold groupStep at hmem
      split at hmem
      · exact hacc b ts hmem t ht
      case isFalse hx =>
        split at hmem
        · exact hacc b ts hmem t ht
        case h_2 b' hb' =>
          split at hmem
          · rcases mem_addToGroups b' x acc b ts hmem with h1 | ⟨ts0, h1, h2⟩ | ⟨h1, h2⟩
            · exact hacc b ts h1 t ht
            · subst h2
              rcases List.mem_append.mp ht with h3 | h3
              · exact hacc b ts0 h1 t h3
              · rw [List.mem_singleton] at h3
                subst h3
                simpa using hx
            · subst h2
              rw [List.mem_singleton] at ht
              subst ht
              simpa using hx
          · exact hacc b ts hmem t ht
  intro b ts hmem
  exact key tags [] (by simp) b ts hmem

/-- Counterexample to claim C6 as stated: with a variant-suffixed current tag,
the variant fallback searches the whole tag list by prefix and can return a
pre-release tag that numerically tops the newest clean group. -/
theorem find_recommended_tag_prerelease_leak :
    find_recommended_tag ["1.0-al", "1.2", "1.2-alpha"] (some "1.0-al")
        = some "1.2-alpha" ∧
      hasPreMarker "1.2-alpha" = true ∧
      (∀ t ∈ (["1.0-al", "1.2", "1.2-alpha"] : List String),
        is_valid_version_tag t = true) :=
  ⟨by decide, by decide, by decide⟩

/-- Claim C6 (amended): when the current tag carries no variant suffix (or
there is no current tag), `find_recommended_tag` never returns a tag with a
pre-release marker, and any returned tag belongs to the base-version group
whose parsed version is maximal among all grouped bases; with a variant
suffix the full-list prefix search can leak a pre-release tag. -/
theorem find_recommended_tag_no_variant (tags : List String)
    (current : Option String) (hvar : current.bind variantOf = none) (t : String)
    (h : find_recommended_tag tags current = some t) :
    hasPreMarker t = false ∧
    ∃ b ts v, (b, ts) ∈ groupBases tags ∧ t ∈ ts ∧
      pyVersionParse (stripVCh b.data) = some v ∧
      ∀ b' ts' v', (b', ts') ∈ groupBases tags →
        pyVersionParse (stripVCh b'.data) = some v' → verLe v' v = true := by
  have hle : ∀ x y : List Nat × String × List String,
      verLe x.1 y.1 = true ∨ verLe y.1 x.1 = true :=
    fun x y => verLe_total x.1 y.1
  have htr : ∀ x y z : List Nat × String × List String,
      verLe x.1 y.1 = true → verLe y.1 z.1 = true → verLe x.1 z.1 = true :=
    fun x y z => verLe_trans x.1 y.1 z.1
  simp only [find_recommended_tag, hvar] at h
  split at h
  · cases h
  · split at h
    · cases h
    case h_2 nv nb nts hlast =>
      have hmem1 : (nv, nb, nts) ∈ insSort (fun a b => verLe a.1 b.1)
          ((groupBases tags).filterMap
            (fun bv => (pyVersionParse (stripVCh bv.1.data)).map
              (fun v => (v, bv.1, bv.2)))) := mem_of_getLast?_some hlast
      have hmem2 := (mem_insSort _ _ _).mp hmem1
      obtain ⟨bv, hbv, hmap⟩ := List.mem_filterMap.mp hmem2
      obtain ⟨v0, hv0, hveq⟩ := Option.map_eq_some'.mp hmap
      have hbv1 : bv.1 = nb := by
        have := congrArg (fun p => p.2.1) hveq
        simpa using this
      have hbv2 : bv.2 = nts := by
        have := congrArg (fun p => p.2.2) hveq
        simpa using this
      have hv0nv : v0 = nv := by
        have := congrArg (fun p => p.1) hveq
        simpa using this
      have hgroup : (nb, nts) ∈ groupBases tags := by
        have : bv = (nb, nts) := Prod.ext hbv1 hbv2
        rwa [this] at hbv
      have ht : t ∈ nts := by
        split at h
        case h_1 t' hfind =>
          cases h
          have := List.mem_of_find?_eq_some hfind
          exact this
        case h_2 hfind =>
          cases nts with
          | nil => cases h
          | cons a rest =>
            cases h
            exact List.mem_cons_self ..
      refine ⟨groupBases_no_prerelease tags nb nts hgroup t ht, nb, nts, nv, hgroup, ht, ?_, ?_⟩
      · rw [← hbv1, hv0, hv0nv]
      · intro b' ts' v' hbts' hv'
        have hmemn : (v', b', ts') ∈ (groupBases tags).filterMap
            (fun bv => (pyVersionParse (stripVCh bv.1.data)).map
              (fun v => (v, bv.1, bv.2))) :=
          List.mem_filterMap.mpr ⟨(b', ts'), hbts', by rw [hv']; rfl⟩
        have hsorted := pairwise_insSort (fun a b : List Nat × String × List String =>
          verLe a.1 b.1) hle htr ((groupBases tags).filterMap
            (fun bv => (pyVersionParse (stripVCh bv.1.data)).map
              (fun v => (v, bv.1, bv.2))))
        rcases pairwise_getLast_ge _ _ hsorted _ hlast (v', b', ts')
            ((mem_insSort _ _ _).mpr hmemn) with heq | hle2
        · have : v' = nv := by
            have := congrArg (fun p => p.1) heq
            simpa using this
          rw [this]
          exact verLe_refl nv
        · exact hle2

/-- Witness for C6 (amended), on a variant-free alpine-style tag list. -/
theorem find_recommended_tag_no_variant_witness :
    hasPreMarker "3.19" = false ∧
    ∃ b ts v, (b, ts) ∈ groupBases ["3.18", "3.19", "latest"] ∧ "3.19" ∈ ts ∧
      pyVersionParse (stripVCh b.data) = some v ∧
      ∀ b' ts' v', (b', ts') ∈ groupBases ["3.18", "3.19", "latest"] →
        pyVersionParse (stripVCh b'.data) = some v' → verLe v' v = true :=
  find_recommended_tag_no_variant ["3.18", "3.19", "latest"] none rfl "3.19" (by decide)

theorem span_exact (p : Char → Bool) (g tl : List Char)
    (hg : ∀ c ∈ g, p c = true) (htl : ∀ c, tl.head? = some c → p c = false) :
    (g ++ tl).takeWhile p = g ∧ (g ++ tl).dropWhile p = tl := by
  induction g with
  | nil =>
    simp only [List.nil_append]
    cases tl with
    | nil => exact ⟨rfl, rfl⟩
    | cons c t =>
      have := htl c rfl
      simp [List.takeWhile_cons, List.dropWhile_cons, this]
  | cons c g' ih =>
    have hc := hg c (by simp)
    have ih2 := ih (fun x hx => hg x (by simp [hx]))
    simp [List.takeWhile_cons, List.dropWhile_cons, hc, ih2.1, ih2.2]

theorem vpatSuffix_iff (cs : List Char) : vpatSuffix cs = true ↔ SuffixOK cs := by
  cases cs with
  | nil => simp [vpatSuffix, SuffixOK]
  | cons c rest =>
    by_cases hc : c = '-'
    · subst hc
      simp only [vpatSuffix, SuffixOK, Bool.and_eq_true, Bool.not_eq_true']
      constructor
      · rintro ⟨h1, h2⟩
        exact Or.inr ⟨rest, rfl, by simpa [List.isEmpty_iff] using h1, h2⟩
      · rintro (h | ⟨suff, heq, h1, h2⟩)
        · cases h
        · cases heq
          exact ⟨by simpa [List.isEmpty_iff] using h1, h2⟩
    · have hvs : vpatSuffix (c :: rest) = false := by
        unfold vpatSuffix
        split
        · rename_i heq
          simp at heq
        · rename_i heq
          rw [List.cons.injEq] at heq
          exact absurd heq.1 hc
        · rfl
      rw [hvs]
      simp only [SuffixOK]
      constructor
      · intro h; cases h
      · rintro (h | ⟨suff, heq, _, _⟩)
        · cases h
        · cases heq
          exact absurd rfl hc

theorem dotJoin_head_nondigit (gs : List (List Char)) (rest : List Char)
    (hrest : SuffixOK rest) :
    ∀ c, (dotJoin gs ++ rest).head? = some c → Char.isDigit c = false := by
  intro c hc
  cases gs with
  | nil =>
    simp only [dotJoin, List.nil_append] at hc
    rcases hrest with h | ⟨suff, hsuf, _, _⟩
    · rw [h] at hc
      cases hc
    · rw [hsuf] at hc
      cases hc
      decide
  | cons g gs' =>
    simp only [dotJoin, List.cons_append] at hc
    cases hc
    decide

theorem vpatGroups_iff (k : Nat) : ∀ cs, vpatGroups k cs = true ↔
    ∃ gs rest, cs = dotJoin gs ++ rest ∧ gs.length ≤ k ∧ GroupsOK gs ∧
      SuffixOK rest := by
  induction k with
  | zero =>
    intro cs
    rw [show vpatGroups 0 cs = vpatSuffix cs from rfl, vpatSuffix_iff]
    constructor
    · intro h
      exact ⟨[], cs, rfl, by simp, by simp [GroupsOK], h⟩
    · rintro ⟨gs, rest, heq, hlen, _, hrest⟩
      have hnil : gs = [] := List.length_eq_zero.mp (by omega)
      subst hnil
      simp only [dotJoin, List.nil_append] at heq
      rwa [heq]
  | succ k ih =>
    intro cs
    cases cs with
    | nil =>
      constructor
      · intro _
        exact ⟨[], [], rfl, by simp, by simp [GroupsOK], Or.inl rfl⟩
      · intro _
        rfl
    | cons c rest0 =>
      by_cases hc : c = '.'
      · subst hc
        have hred : vpatGroups (k + 1) ('.' :: rest0) =
            (!(rest0.takeWhile Char.isDigit).isEmpty &&
              vpatGroups k (rest0.dropWhile Char.isDigit)) := rfl
        rw [hred, Bool.and_eq_true, ih]
        constructor
        · rintro ⟨hne, gs', rest, heq, hlen, hgs, hrest⟩
          refine ⟨rest0.takeWhile Char.isDigit :: gs', rest, ?_, by simpa using hlen,
            ?_, hrest⟩
          · simp only [dotJoin, List.cons_append, List.append_assoc]
            rw [List.cons.injEq]
            refine ⟨rfl, ?_⟩
            rw [← heq]
            exact (List.takeWhile_append_dropWhile ..).symm
          · intro g hg
            rcases List.mem_cons.mp hg with rfl | hg
            · refine ⟨by simpa [List.isEmpty_iff] using hne, ?_⟩
              rw [List.all_eq_true]
              intro x hx
              exact List.mem_takeWhile_imp hx
            · exact hgs g hg
        · rintro ⟨gs, rest, heq, hlen, hgs, hrest⟩
          cases gs with
          | nil =>
            exfalso
            simp only [dotJoin, List.nil_append] at heq
            rcases hrest with h | ⟨suff, hsuf, _, _⟩
            · rw [h] at heq
              cases heq
            · rw [hsuf] at heq
              rw [List.cons.injEq] at heq
              exact absurd heq.1 (by decide)
          | cons g gs' =>
            obtain ⟨hgne, hgdig⟩ := hgs g (by simp)
            have heq2 : rest0 = g ++ (dotJoin gs' ++ rest) := by
              simp only [dotJoin, List.cons_append, List.append_assoc,
                List.cons.injEq] at heq
              exact heq.2
            have hspan := span_exact Char.isDigit g (dotJoin gs' ++ rest)
              (fun x hx => by rw [List.all_eq_true] at hgdig; exact hgdig x hx)
              (dotJoin_head_nondigit gs' rest hrest)
            refine ⟨?_, gs', rest, ?_, by simpa using hlen,
              fun g2 hg2 => hgs g2 (by simp [hg2]), hrest⟩
            · rw [heq2, hspan.1]
              simpa [List.isEmpty_iff] using hgne
            · rw [heq2, hspan.2]
      · have hred : vpatGroups (k + 1) (c :: rest0) = vpatSuffix (c :: rest0) := by
          unfold vpatGroups
          split
          · rename_i heq
            rw [List.cons.injEq] at heq
            exact absurd heq.1 hc
          · rfl
        rw [hred, vpatSuffix_iff]
        constructor
        · intro h
          exact ⟨[], c :: rest0, rfl, by simp, by simp [GroupsOK], h⟩
        · rintro ⟨gs, rest, heq, hlen, hgs, hrest⟩
          cases gs with
          | nil =>
            simp only [dotJoin, List.nil_append] at heq
            rwa [heq]
          | cons g gs' =>
            exfalso
            simp only [dotJoin, List.cons_append, List.cons.injEq] at heq
            exact absurd heq.1 hc

theorem matchVPat_iff (cs : List Char) : matchVPat cs = true ↔ FullDecomp cs := by
  unfold matchVPat FullDecomp
  rw [Bool.and_eq_true, vpatGroups_iff]
  constructor
  · rintro ⟨hne, gs', rest, heq, hlen, hgs, hrest⟩
    refine ⟨(stripVCh cs).takeWhile Char.isDigit :: gs', rest, ?_, by simp,
      by simpa using hlen, ?_, hrest⟩
    · show stripVCh cs =
        ((stripVCh cs).takeWhile Char.isDigit ++ dotJoin gs') ++ rest
      rw [List.append_assoc, ← heq]
      exact (List.takeWhile_append_dropWhile ..).symm
    · intro g hg
      rcases List.mem_cons.mp hg with rfl | hg
      · refine ⟨by simpa [List.isEmpty_iff] using hne, ?_⟩
        rw [List.all_eq_true]
        intro x hx
        exact List.mem_takeWhile_imp hx
      · exact hgs g hg
  · rintro ⟨gs, rest, heq, hlen1, hlen4, hgs, hrest⟩
    cases gs with
    | nil => simp at hlen1
    | cons g gs' =>
      obtain ⟨hgne, hgdig⟩ := hgs g (by simp)
      have heq2 : stripVCh cs = g ++ (dotJoin gs' ++ rest) := by
        simpa [joinDots, List.append_assoc] using heq
      have hspan := span_exact Char.isDigit g (dotJoin gs' ++ rest)
        (fun x hx => by rw [List.all_eq_true] at hgdig; exact hgdig x hx)
        (dotJoin_head_nondigit gs' rest hrest)
      constructor
      · rw [heq2, hspan.1]
        simpa [List.isEmpty_iff] using hgne
      · rw [heq2, hspan.2]
        exact ⟨gs', rest, rfl, by simpa using hlen4,
          fun g2 hg2 => hgs g2 (by simp [hg2]), hrest⟩

theorem splitChGo_ne_nil (sep : Char) (cs : List Char) : ∀ cur,
    splitChGo sep cs cur ≠ [] := by
  induction cs with
  | nil => intro cur; simp [splitChGo]
  | cons c cs' ih =>
    intro cur
    by_cases hc : c = sep
    · simp [splitChGo, hc]
    · simpa [splitChGo, hc] using ih (c :: cur)

theorem dotJoin_of_ne_nil (S : List (List Char)) (h : S ≠ []) :
    dotJoin S = '.' :: joinDots S := by
  cases S with
  | nil => exact absurd rfl h
  | cons g gs => rfl

theorem splitChGo_joinDots (cs : List Char) : ∀ cur,
    joinDots (splitChGo '.' cs cur) = cur.reverse ++ cs := by
  induction cs with
  | nil => intro cur; simp [splitChGo, joinDots, dotJoin]
  | cons c cs' ih =>
    intro cur
    by_cases hc : c = '.'
    · subst hc
      rw [show splitChGo '.' ('.' :: cs') cur = cur.reverse :: splitChGo '.' cs' []
        from by simp [splitChGo]]
      rw [show joinDots (cur.reverse :: splitChGo '.' cs' []) =
        cur.reverse ++ dotJoin (splitChGo '.' cs' []) from rfl]
      rw [dotJoin_of_ne_nil _ (splitChGo_ne_nil '.' cs' []), ih []]
      simp
    · rw [show splitChGo '.' (c :: cs') cur = splitChGo '.' cs' (c :: cur)
        from by simp [splitChGo, hc]]
      rw [ih (c :: cur)]
      simp

theorem joinDots_splitCh (cs : List Char) : joinDots (splitCh '.' cs) = cs := by
  simpa using splitChGo_joinDots cs []

theorem splitChGo_append_no_sep (sep : Char) (g : List Char)
    (hg : ∀ c ∈ g, c ≠ sep) : ∀ (tl cur : List Char),
    splitChGo sep (g ++ tl) cur = splitChGo sep tl (g.reverse ++ cur) := by
  induction g with
  | nil => intro tl cur; simp
  | cons c g' ih =>
    intro tl cur
    have hc : c ≠ sep := hg c (by simp)
    rw [show (c :: g') ++ tl = c :: (g' ++ tl) from rfl]
    rw [show splitChGo sep (c :: (g' ++ tl)) cur = splitChGo sep (g' ++ tl) (c :: cur)
      from by simp [splitChGo, hc]]
    rw [ih (fun x hx => hg x (by simp [hx])) tl (c :: cur)]
    simp

theorem splitChGo_dotJoin (gs : List (List Char))
    (hgs : ∀ g ∈ gs, ∀ c ∈ g, c ≠ '.') : ∀ cur,
    splitChGo '.' (dotJoin gs) cur = cur.reverse :: gs := by
  induction gs with
  | nil => intro cur; simp [dotJoin, splitChGo]
  | cons g gs' ih =>
    intro cur
    show splitChGo '.' ('.' :: (g ++ dotJoin gs')) cur = cur.reverse :: g :: gs'
    simp only [splitChGo, if_pos rfl]
    rw [splitChGo_append_no_sep '.' g (hgs g (by simp)) (dotJoin gs') []]
    rw [ih (fun g2 hg2 => hgs g2 (by simp [hg2])) (g.reverse ++ [])]
    simp

theorem splitCh_joinDots (gs : List (List Char)) (hne : gs ≠ [])
    (hgs : ∀ g ∈ gs, ∀ c ∈ g, c ≠ '.') : splitCh '.' (joinDots gs) = gs := by
  cases gs with
  | nil => exact absurd rfl hne
  | cons g gs' =>
    show splitChGo '.' (g ++ dotJoin gs') [] = g :: gs'
    rw [splitChGo_append_no_sep '.' g (hgs g (by simp)) (dotJoin gs') []]
    rw [splitChGo_dotJoin gs' (fun g2 hg2 => hgs g2 (by simp [hg2])) (g.reverse ++ [])]
    simp

theorem splitChGo_no_sep (sep : Char) (cs : List Char) : ∀ cur,
    (∀ c ∈ cur, c ≠ sep) →
    ∀ g ∈ splitChGo sep cs cur, ∀ c ∈ g, c ≠ sep := by
  induction cs with
  | nil =>
    intro cur hcur g hg
    rw [show splitChGo sep [] cur = [cur.reverse] from rfl, List.mem_singleton] at hg
    subst hg
    intro c hc
    exact hcur c (List.mem_reverse.mp hc)
  | cons c0 cs' ih =>
    intro cur hcur g hg
    by_cases hc : c0 = sep
    · rw [show splitChGo sep (c0 :: cs') cur =
        cur.reverse :: splitChGo sep cs' [] from by simp [splitChGo, hc]] at hg
      rcases List.mem_cons.mp hg with rfl | hg
      · intro c hcm
        exact hcur c (List.mem_reverse.mp hcm)
      · exact ih [] (by simp) g hg
    · rw [show splitChGo sep (c0 :: cs') cur =
        splitChGo sep cs' (c0 :: cur) from by simp [splitChGo, hc]] at hg
      refine ih (c0 :: cur) ?_ g hg
      intro c hcm
      rcases List.mem_cons.mp hcm with rfl | hcm
      · exact hc
      · exact hcur c hcm

theorem dropWhile_append_all {p : Char → Bool} (l1 l2 : List Char)
    (h : ∀ c ∈ l1, p c = true) : (l1 ++ l2).dropWhile p = l2.dropWhile p := by
  induction l1 with
  | nil => simp
  | cons a l ih =>
    rw [show (a :: l) ++ l2 = a :: (l ++ l2) from rfl, List.dropWhile_cons,
      h a (by simp)]
    simpa using ih (fun c hc => h c (by simp [hc]))

theorem stripVCh_not_v (cs : List Char) (h : cs.head? ≠ some 'v') :
    stripVCh cs = cs := by
  unfold stripVCh
  split
  · exact absurd rfl h
  · rfl

theorem stripV_split_dash (cs : List Char) :
    stripVCh cs = stripVCh (cs.takeWhile (fun c => c ≠ '-')) ++
      cs.dropWhile (fun c => c ≠ '-') := by
  cases cs with
  | nil => rfl
  | cons c t =>
    by_cases hdash : c = '-'
    · subst hdash
      rw [show ('-' :: t).takeWhile (fun c => c ≠ '-') = [] from rfl]
      rw [show ('-' :: t).dropWhile (fun c => c ≠ '-') = '-' :: t from rfl]
      rw [stripVCh_not_v ('-' :: t) (by simp)]
      rfl
    · by_cases hv : c = 'v'
      · subst hv
        rw [show ('v' :: t).takeWhile (fun c => c ≠ '-') =
          'v' :: t.takeWhile (fun c => c ≠ '-') from rfl]
        rw [show ('v' :: t).dropWhile (fun c => c ≠ '-') =
          t.dropWhile (fun c => c ≠ '-') from rfl]
        show t = stripVCh ('v' :: t.takeWhile (fun c => c ≠ '-')) ++
          t.dropWhile (fun c => c ≠ '-')
        rw [show stripVCh ('v' :: t.takeWhile (fun c => c ≠ '-')) =
          t.takeWhile (fun c => c ≠ '-') from rfl]
        exact (List.takeWhile_append_dropWhile ..).symm
      · have hpc : decide (c ≠ '-') = true := by simp [hdash]
        rw [List.takeWhile_cons, List.dropWhile_cons]
        rw [if_pos hpc, if_pos hpc]
        rw [stripVCh_not_v (c :: t) (by simpa using hv)]
        rw [stripVCh_not_v (c :: t.takeWhile (fun x => x ≠ '-')) (by simpa using hv)]
        show c :: t = c :: (t.takeWhile (fun x => x ≠ '-') ++
          t.dropWhile (fun x => x ≠ '-'))
        rw [List.takeWhile_append_dropWhile]

theorem suffixOK_take_drop (rest : List Char) (h : SuffixOK rest) :
    rest.takeWhile (fun c => c ≠ '-') = [] ∧
      rest.dropWhile (fun c => c ≠ '-') = rest := by
  rcases h with h | ⟨suff, heq, _, _⟩
  · subst h
    exact ⟨rfl, rfl⟩
  · subst heq
    exact ⟨rfl, rfl⟩

theorem dropWhile_dash_shape (cs : List Char) :
    cs.dropWhile (fun c => c ≠ '-') = [] ∨
      ∃ suff, cs.dropWhile (fun c => c ≠ '-') = '-' :: suff := by
  induction cs with
  | nil => exact Or.inl rfl
  | cons c t ih =>
    by_cases hc : c = '-'
    · subst hc
      exact Or.inr ⟨t, rfl⟩
    · have hpc : decide (c ≠ '-') = true := by simp [hc]
      rw [List.dropWhile_cons, if_pos hpc]
      exact ih

theorem dotJoin_chars (gs : List (List Char))
    (hgs : ∀ g ∈ gs, g.all Char.isDigit = true) :
    ∀ c ∈ dotJoin gs, c = '.' ∨ c.isDigit = true := by
  induction gs with
  | nil => intro c hc; cases hc
  | cons g gs' ih =>
    intro c hc
    rw [show dotJoin (g :: gs') = '.' :: (g ++ dotJoin gs') from rfl] at hc
    rcases List.mem_cons.mp hc with rfl | hc
    · exact Or.inl rfl
    · rcases List.mem_append.mp hc with hc | hc
      · have := hgs g (by simp)
        rw [List.all_eq_true] at this
        exact Or.inr (this c hc)
      · exact ih (fun g2 hg2 => hgs g2 (by simp [hg2])) c hc

theorem joinDots_chars (gs : List (List Char))
    (hgs : ∀ g ∈ gs, g.all Char.isDigit = true) :
    ∀ c ∈ joinDots gs, c = '.' ∨ c.isDigit = true := by
  intro c hc
  cases gs with
  | nil => cases hc
  | cons g gs' =>
    rw [show joinDots (g :: gs') = g ++ dotJoin gs' from rfl] at hc
    rcases List.mem_append.mp hc with hc | hc
    · have := hgs g (by simp)
      rw [List.all_eq_true] at this
      exact Or.inr (this c hc)
    · exact dotJoin_chars gs' (fun g2 hg2 => hgs g2 (by simp [hg2])) c hc

theorem joinDots_no_dash (gs : List (List Char))
    (hgs : ∀ g ∈ gs, g.all Char.isDigit = true) :
    ∀ c ∈ joinDots gs, (fun c => decide (c ≠ '-')) c = true := by
  intro c hc
  rcases joinDots_chars gs hgs c hc with rfl | hdig
  · decide
  · simp only [decide_eq_true_eq]
    intro heq
    subst heq
    simp at hdig

theorem digit_ne_dot {c : Char} (h : c.isDigit = true) : c ≠ '.' := by
  intro heq
  subst heq
  simp at h

theorem take_drop_of_decomp (cs : List Char) (gs : List (List Char))
    (rest : List Char) (heq : stripVCh cs = joinDots gs ++ rest)
    (h1 : 1 ≤ gs.length) (hgs : GroupsOK gs) (hrest : SuffixOK rest) :
    stripVCh (cs.takeWhile (fun c => c ≠ '-')) = joinDots gs ∧
      cs.dropWhile (fun c => c ≠ '-') = rest := by
  have hdigits : ∀ g ∈ gs, g.all Char.isDigit = true := fun g hg => (hgs g hg).2
  have hnd := joinDots_no_dash gs hdigits
  have hheads : ∀ c, (joinDots gs).head? = some c → c.isDigit = true := by
    intro c hc
    cases gs with
    | nil => cases hc
    | cons g gs' =>
      obtain ⟨hgne, hgdig⟩ := hgs g (by simp)
      cases g with
      | nil => exact absurd rfl hgne
      | cons x g'' =>
        rw [show joinDots ((x :: g'') :: gs') = x :: (g'' ++ dotJoin gs')
          from rfl] at hc
        cases hc
        rw [List.all_eq_true] at hgdig
        exact hgdig c (by simp)
  have hjoin_ne : joinDots gs ≠ [] := by
    cases gs with
    | nil => simp at h1
    | cons g gs' =>
      obtain ⟨hgne, _⟩ := hgs g (by simp)
      cases g with
      | nil => exact absurd rfl hgne
      | cons x g'' => simp [joinDots]
  have hstripJ : stripVCh (joinDots gs) = joinDots gs := by
    apply stripVCh_not_v
    cases hh : (joinDots gs).head? with
    | none => simp
    | some c =>
      have := hheads c hh
      intro hcon
      cases hcon
      simp at this
  cases cs with
  | nil =>
    exfalso
    rw [show stripVCh [] = [] from rfl] at heq
    rcases List.append_eq_nil.mp heq.symm with ⟨hj, _⟩
    exact hjoin_ne hj
  | cons c t =>
    by_cases hv : c = 'v'
    · subst hv
      have heqt : t = joinDots gs ++ rest := heq
      have htake : t.takeWhile (fun c => c ≠ '-') = joinDots gs := by
        rw [heqt, takeWhile_append_all _ _ hnd, (suffixOK_take_drop rest hrest).1,
          List.append_nil]
      have hdrop : t.dropWhile (fun c => c ≠ '-') = rest := by
        rw [heqt, dropWhile_append_all _ _ hnd, (suffixOK_take_drop rest hrest).2]
      constructor
      · rw [show ('v' :: t).takeWhile (fun c => c ≠ '-') =
          'v' :: t.takeWhile (fun c => c ≠ '-') from rfl, htake]
        rfl
      · rw [show ('v' :: t).dropWhile (fun c => c ≠ '-') =
          t.dropWhile (fun c => c ≠ '-') from rfl, hdrop]
    · have heqt : c :: t = joinDots gs ++ rest := by
        rw [← heq, stripVCh_not_v (c :: t) (by simpa using hv)]
      constructor
      · rw [show (c :: t).takeWhile (fun x => x ≠ '-') =
          ((c :: t)).takeWhile (fun x => x ≠ '-') from rfl, heqt,
          takeWhile_append_all _ _ hnd, (suffixOK_take_drop rest hrest).1,
          List.append_nil, hstripJ]
      · rw [heqt, dropWhile_append_all _ _ hnd, (suffixOK_take_drop rest hrest).2]

theorem specCoreB_iff (cs : List Char) : specCoreB cs = true ↔ FullDecomp cs := by
  unfold specCoreB FullDecomp
  simp only [Bool.and_eq_true, decide_eq_true_eq]
  constructor
  · rintro ⟨⟨⟨h1, h4⟩, hall⟩, hsuf⟩
    refine ⟨splitCh '.' (stripVCh (cs.takeWhile (fun c => c ≠ '-'))),
      cs.dropWhile (fun c => c ≠ '-'), ?_, h1, h4, ?_, ?_⟩
    · rw [joinDots_splitCh]
      exact stripV_split_dash cs
    · intro g hg
      rw [List.all_eq_true] at hall
      have h2 := hall g hg
      simp only [Bool.and_eq_true, Bool.not_eq_true'] at h2
      exact ⟨by simpa [List.isEmpty_iff] using h2.1, h2.2⟩
    · rcases dropWhile_dash_shape cs with h | ⟨suff, hsh⟩
      · exact Or.inl h
      · right
        rw [hsh] at hsuf
        simp only [Bool.and_eq_true, Bool.not_eq_true'] at hsuf
        exact ⟨suff, hsh, by simpa [List.isEmpty_iff] using hsuf.1, hsuf.2⟩
  · rintro ⟨gs, rest, heq, h1, h4, hgs, hrest⟩
    obtain ⟨htake, hdrop⟩ := take_drop_of_decomp cs gs rest heq h1 hgs hrest
    have hdotfree : ∀ g ∈ gs, ∀ c ∈ g, c ≠ '.' := by
      intro g hg c hc
      have := (hgs g hg).2
      rw [List.all_eq_true] at this
      exact digit_ne_dot (this c hc)
    have hgroups : splitCh '.' (stripVCh (cs.takeWhile (fun c => c ≠ '-'))) = gs := by
      rw [htake]
      exact splitCh_joinDots gs (by intro h; subst h; simp at h1) hdotfree
    rw [hgroups, hdrop]
    refine ⟨⟨⟨h1, h4⟩, ?_⟩, ?_⟩
    · rw [List.all_eq_true]
      intro g hg
      obtain ⟨hgne, hgdig⟩ := hgs g hg
      simp only [Bool.and_eq_true, Bool.not_eq_true']
      exact ⟨by simpa [List.isEmpty_iff] using hgne, hgdig⟩
    · rcases hrest with h | ⟨suff, hsh, hsne, hslow⟩
      · rw [h]
      · rw [hsh]
        simp only [Bool.and_eq_true, Bool.not_eq_true']
        exact ⟨by simpa [List.isEmpty_iff] using hsne, hslow⟩

theorem digitRunsGo_sum (cs : List Char) : ∀ cur,
    ((digitRunsGo cs cur).map List.length).sum =
      cs.countP Char.isDigit + cur.length := by
  induction cs with
  | nil =>
    intro cur
    cases cur with
    | nil => rfl
    | cons c cu => simp [digitRunsGo]
  | cons c cs' ih =>
    intro cur
    by_cases hc : c.isDigit = true
    · rw [show digitRunsGo (c :: cs') cur = digitRunsGo cs' (c :: cur)
        from by simp [digitRunsGo, hc]]
      rw [ih (c :: cur), List.countP_cons_of_pos _ _ hc]
      simp only [List.length_cons]
      omega
    · cases cur with
      | nil =>
        rw [show digitRunsGo (c :: cs') [] = digitRunsGo cs' []
          from by simp [digitRunsGo, hc]]
        rw [ih [], List.countP_cons_of_neg _ _ (by simpa using hc)]
      | cons d cu =>
        rw [show digitRunsGo (c :: cs') (d :: cu) =
          (d :: cu).reverse :: digitRunsGo cs' [] from by simp [digitRunsGo, hc]]
        simp only [List.map_cons, List.sum_cons, List.length_reverse]
        rw [ih [], List.countP_cons_of_neg _ _ (by simpa using hc)]
        simp only [List.length_cons, List.length_nil]
        omega

theorem totalDigits_eq_countP (cs : List Char) :
    totalDigitsCount cs = cs.countP Char.isDigit := by
  unfold totalDigitsCount digitRuns
  simpa using digitRunsGo_sum cs []

/-- Claim C8: `is_valid_version_tag` accepts exactly the tags of the spec's
shape (optional leading v, 1-4 dot-separated integer groups, optional single
lowercase-alphanumeric dash suffix) minus the three rejection heuristics; in
particular the three worked examples hold. -/
theorem is_valid_version_tag_characterization :
    (∀ tag : String, is_valid_version_tag tag = is_valid_version_tag_spec tag) ∧
    is_valid_version_tag "20220101" = false ∧
    is_valid_version_tag "1.24-alpine" = true ∧
    is_valid_version_tag "1.2.3.4.5.6" = false := by
  refine ⟨?_, by decide, by decide, by decide⟩
  intro tag
  have hcount : totalDigitsCount tag.data = tag.data.countP Char.isDigit :=
    totalDigits_eq_countP tag.data
  have hcore : matchVPat tag.data = specCoreB tag.data := by
    cases hA : matchVPat tag.data <;> cases hB : specCoreB tag.data
    · rfl
    · exact absurd ((matchVPat_iff tag.data).mpr ((specCoreB_iff tag.data).mp hB))
        (by simp [hA])
    · exact absurd ((specCoreB_iff tag.data).mpr ((matchVPat_iff tag.data).mp hA))
        (by simp [hB])
    · rfl
  simp only [is_valid_version_tag, is_valid_version_tag_spec, ← hcount, ← hcore]
  cases h1 : (decide (6 ≤ tag.data.length) && tag.data.all Char.isDigit) <;>
    cases h2 : decide (4 < (digitRuns tag.data).length) <;>
      cases h3 : decide (8 < totalDigitsCount tag.data) <;>
        simp [h1, h2, h3]

